import Mathlib

/- Shallow embedding of the command interpretation engine of the voice
   assistant source file main.py: the expression normalizer, the safe
   arithmetic evaluator, the intent classifier and the wake-word session
   retry loop.  Strings are modelled as lists of characters; the Python
   functions become total Lean functions, with exceptions turned into
   explicit error results. -/

namespace Assistant

/-- Strings are modelled as lists of characters. -/
abbrev Str := List Char

/-- Convert a Lean string literal to the character-list model. -/
def str (s : String) : Str := s.data

/-- The characters Python str.strip removes (ASCII whitespace). -/
def isPySpace (c : Char) : Bool :=
  c = ' ' || c = '\t' || c = '\n' || c = '\r' || c = '\x0b' || c = '\x0c'

/-- Python str.lstrip with no argument. -/
def stripLeft (s : Str) : Str := s.dropWhile isPySpace

/-- Python str.rstrip with no argument. -/
def stripRight (s : Str) : Str := (s.reverse.dropWhile isPySpace).reverse

/-- Python str.strip with no argument. -/
def strip (s : Str) : Str := stripRight (stripLeft s)

/-- Does the pattern p occur as a contiguous substring of s?
    This models the Python `in` operator on strings. -/
def containsSub (p : Str) : Str → Bool
  | [] => p.isEmpty
  | c :: cs => p.isPrefixOf (c :: cs) || containsSub p cs

/-- One fuelled step list of Python str.replace: replace every occurrence
    of p in s by v, scanning left to right and resuming after each
    replacement.  The fuel bounds the number of scanning steps; each step
    consumes at least one character of s, so fuel equal to the length of s
    suffices. -/
def replAux (p v : Str) : Nat → Str → Str
  | _, [] => []
  | 0, s => s
  | fuel + 1, c :: cs =>
    if p.isPrefixOf (c :: cs) then v ++ replAux p v fuel (List.drop p.length (c :: cs))
    else c :: replAux p v fuel cs

/-- Python str.replace(p, v) for a non-empty pattern p. -/
def replaceL (p v s : Str) : Str := replAux p v s.length s

example : replaceL (str " plus ") (str " + ") (str " 1 plus plus 2 ") = str " 1 + plus 2 " := by
  decide

example : strip (str "  ab c  ") = str "ab c" := by decide

example : containsSub (str "stop") (str "what is a stopwatch") = true := by decide

/- ------------------------------------------------------------------
   Expression normalizer.
   In main.py this is the replacement loop inside handle_user_command:
   the expression is padded with one space on each side, each entry of
   the replacements dict is applied with str.replace in insertion
   order, and the result is stripped.
   ------------------------------------------------------------------ -/

/-- The spoken-operator replacement table, in the insertion order of the
    Python dict in handle_user_command (which is the order the loop
    applies them). -/
def replacements : List (Str × Str) :=
  [ (str " plus ", str " + ")
  , (str " minus ", str " - ")
  , (str " times ", str " * ")
  , (str " multiplied by ", str " * ")
  , (str " divided by ", str " / ")
  , (str " over ", str " / ")
  , (str " mod ", str " % ")
  , (str " modulo ", str " % ")
  , (str " to the power of ", str "**")
  , (str " power of ", str "**") ]

/-- Apply a list of str.replace substitutions left to right. -/
def applyRepls (rs : List (Str × Str)) (s : Str) : Str :=
  rs.foldl (fun acc pv => replaceL pv.1 pv.2 acc) s

/-- The expression normalizer: pad with one space on each side, apply the
    replacement table in dict order, and strip the result. -/
def normalize (t : Str) : Str :=
  strip (applyRepls replacements (' ' :: t ++ [' ']))

/-- The same ten replacements in the order the specification lists them
    (longer phrases first).  This definition follows the words of the
    specification and exists only to be compared with the normalize
    function taken from the source. -/
def replacementsSpecOrder : List (Str × Str) :=
  [ (str " multiplied by ", str " * ")
  , (str " divided by ", str " / ")
  , (str " to the power of ", str "**")
  , (str " power of ", str "**")
  , (str " plus ", str " + ")
  , (str " minus ", str " - ")
  , (str " times ", str " * ")
  , (str " over ", str " / ")
  , (str " modulo ", str " % ")
  , (str " mod ", str " % ") ]

/-- Normalizer following the replacement order written in the
    specification; compared against normalize below. -/
def normalizeSpecOrder (t : Str) : Str :=
  strip (applyRepls replacementsSpecOrder (' ' :: t ++ [' ']))

example : normalize (str "23 times 7") = str "23 * 7" := by decide
example : normalize (str "2 to the power of plus 3") = str "2**+ 3" := by decide
example : normalizeSpecOrder (str "2 to the power of plus 3") = str "2**plus 3" := by decide
example : normalize (normalize (str "1 plus plus 2")) = str "1 + + 2" := by decide

/- ------------------------------------------------------------------
   Safe arithmetic evaluator.
   safe_eval in main.py strips commas and whitespace, parses the string
   with ast.parse and walks the tree, allowing only numeric constants,
   the binary operators Add Sub Mult Div Mod Pow and the unary
   operators UAdd USub.  The character whitelist that guards it lives in
   handle_user_command and is checked before safe_eval is called.
   Numbers are modelled as exact rationals; the spec only asks for
   correctness up to floating-point tolerance, and every claim checked
   here involves values that are exact in both models.
   ------------------------------------------------------------------ -/

/-- Error taxonomy of the evaluator, following section 7 of the spec.
    disallowedConstruct covers the source messages "Operator not
    allowed", "Unary operator not allowed", "Only numeric constants are
    allowed" and "Expression contains disallowed elements".
    unsupportedPower marks a fractional exponent, whose float result is
    irrational and falls outside the rational model; no claim and no
    concrete input below reaches it. -/
inductive ArithError where
  | emptyExpression
  | disallowedCharacter
  | invalidSyntax
  | disallowedConstruct
  | divisionByZero
  | unsupportedPower
deriving DecidableEq, Repr

/-- Numeric values of the evaluator: unnormalized fractions of integers.
    The evaluator only ever builds fractions with a nonzero denominator
    (lemma evalNode_den below).  Exact fractions model the float
    arithmetic of the source up to the floating-point tolerance the spec
    allows; a dedicated raw representation is used because the field
    operations of the library rational type are deliberately opaque to
    evaluation. -/
structure Q where
  num : Int
  den : Int
deriving DecidableEq, Repr

/-- The rational value of a fraction; used to state specifications. -/
def Q.toRat (q : Q) : ℚ := (q.num : ℚ) / (q.den : ℚ)

/-- Addition of fractions. -/
def qAdd (a b : Q) : Q := ⟨a.num * b.den + b.num * a.den, a.den * b.den⟩

/-- Subtraction of fractions. -/
def qSub (a b : Q) : Q := ⟨a.num * b.den - b.num * a.den, a.den * b.den⟩

/-- Multiplication of fractions. -/
def qMul (a b : Q) : Q := ⟨a.num * b.num, a.den * b.den⟩

/-- Additive inverse of a fraction. -/
def qNeg (a : Q) : Q := ⟨-a.num, a.den⟩

/-- Division of fractions; callers check that b is nonzero first. -/
def qDiv (a b : Q) : Q := ⟨a.num * b.den, a.den * b.num⟩

/-- Floor of a fraction: after normalizing the sign of the denominator,
    Euclidean division by a positive divisor rounds toward negative
    infinity. -/
def qFloor (a : Q) : Int :=
  if 0 ≤ a.den then a.num / a.den else (-a.num) / (-a.den)

/-- Python modulo on numbers: a - b * floor (a / b); callers check that
    b is nonzero first. -/
def qMod (a b : Q) : Q := qSub a (qMul b ⟨qFloor (qDiv a b), 1⟩)

/-- A fraction raised to an integer exponent; for a negative exponent
    the callers have checked that the base is nonzero. -/
def qPowInt (a : Q) (k : Int) : Q :=
  if 0 ≤ k then ⟨a.num ^ k.toNat, a.den ^ k.toNat⟩
  else ⟨a.den ^ (-k).toNat, a.num ^ (-k).toNat⟩

/-- Binary operators of the reachable Python AST.  floorDiv (written //)
    parses but is not in ALLOWED_OPERATORS, so evaluating it errors. -/
inductive PyBop where
  | add | sub | mult | div | floorDiv | mod | pow
deriving DecidableEq, Repr

/-- Unary operators of the reachable Python AST. -/
inductive PyUop where
  | uadd | usub
deriving DecidableEq, Repr

/-- The expression AST built by ast.parse, restricted to the node kinds
    reachable from strings over the character whitelist.  tuple0 is the
    empty tuple written as a pair of parentheses, which parses but is
    rejected by the evaluator walk. -/
inductive PyExpr where
  | const (q : Q)
  | binOp (o : PyBop) (l r : PyExpr)
  | unaryOp (o : PyUop) (e : PyExpr)
  | tuple0
deriving DecidableEq, Repr

/-- Apply an allowed binary operator, with Python error behaviour:
    division and modulo by zero error, float modulo is
    x - y * floor (x / y), zero to a negative power errors, a
    fractional exponent is outside the exact model, and floor division
    is outside ALLOWED_OPERATORS. -/
def applyBin (o : PyBop) (a b : Q) : Except ArithError Q :=
  match o with
  | .add => .ok (qAdd a b)
  | .sub => .ok (qSub a b)
  | .mult => .ok (qMul a b)
  | .div => if b.num = 0 then .error .divisionByZero else .ok (qDiv a b)
  | .floorDiv => .error .disallowedConstruct
  | .mod =>
    if b.num = 0 then .error .divisionByZero
    else .ok (qMod a b)
  | .pow =>
    if b.num % b.den = 0 then
      if a.num = 0 ∧ b.num / b.den < 0 then .error .divisionByZero
      else .ok (qPowInt a (b.num / b.den))
    else .error .unsupportedPower

/-- Apply an allowed unary operator. -/
def applyUn (o : PyUop) (a : Q) : Q :=
  match o with
  | .uadd => a
  | .usub => qNeg a

/-- The recursive _eval walk of safe_eval: numbers evaluate to
    themselves, operator nodes evaluate both children and dispatch
    through the allowed-operator table, anything else is rejected. -/
def evalNode : PyExpr → Except ArithError Q
  | .const q => .ok q
  | .binOp o l r => do
    let a ← evalNode l
    let b ← evalNode r
    applyBin o a b
  | .unaryOp o e => do
    let a ← evalNode e
    .ok (applyUn o a)
  | .tuple0 => .error .disallowedConstruct

/-- Tokens of the restricted expression grammar. -/
inductive Tok where
  | num (q : Q)
  | plus | minus | star | slash | dstar | dslash | percent | lpar | rpar
deriving DecidableEq, Repr

/-- Numeric value of a decimal digit character (garbage elsewhere,
    callers only use it on digits). -/
def digitVal (c : Char) : Nat := c.toNat - 48

/-- Value of a list of decimal digit characters, most significant first. -/
def digitsToNat (ds : Str) : Nat :=
  ds.foldl (fun a c => 10 * a + digitVal c) 0

/-- Python rejects a decimal integer literal with a leading zero unless
    every digit is zero (so 0 and 00 parse, 010 does not).  Float
    literals carry no such restriction. -/
def intValid (ds : Str) : Bool :=
  ds.length ≤ 1 || ds.headI ≠ '0' || ds.all (· = '0')

/-- Fraction value of a numeric literal with integer digits d1 and
    fractional digits d2. -/
def numVal (d1 d2 : Str) : Q :=
  ⟨digitsToNat d1 * 10 ^ d2.length + digitsToNat d2, 10 ^ d2.length⟩

/-- Fuelled tokenizer for the restricted grammar: skips whitespace,
    scans maximal numeric literals (digits, optional point, digits) and
    the operator and parenthesis symbols, with ** and // read as single
    tokens.  Each step consumes at least one character, so fuel equal to
    the length of the input suffices.  A character outside the grammar is
    a syntax error; after the whitelist gate only whitelisted characters
    can appear here. -/
def tokenizeAux : Nat → Str → Except ArithError (List Tok)
  | _, [] => .ok []
  | 0, _ :: _ => .error .invalidSyntax
  | f + 1, c :: cs =>
    if isPySpace c then tokenizeAux f cs
    else if c.isDigit || c = '.' then
      if ((c :: cs).dropWhile Char.isDigit).head? = some '.' then
        if ((c :: cs).takeWhile Char.isDigit).isEmpty &&
            (((c :: cs).dropWhile Char.isDigit).tail.takeWhile Char.isDigit).isEmpty then
          .error .invalidSyntax
        else do
          let ts ← tokenizeAux f
            (((c :: cs).dropWhile Char.isDigit).tail.dropWhile Char.isDigit)
          .ok (.num (numVal ((c :: cs).takeWhile Char.isDigit)
            (((c :: cs).dropWhile Char.isDigit).tail.takeWhile Char.isDigit)) :: ts)
      else
        if intValid ((c :: cs).takeWhile Char.isDigit) then do
          let ts ← tokenizeAux f ((c :: cs).dropWhile Char.isDigit)
          .ok (.num (numVal ((c :: cs).takeWhile Char.isDigit) []) :: ts)
        else .error .invalidSyntax
    else if c = '+' then do
      let ts ← tokenizeAux f cs
      .ok (.plus :: ts)
    else if c = '-' then do
      let ts ← tokenizeAux f cs
      .ok (.minus :: ts)
    else if c = '*' then
      if cs.head? = some '*' then do
        let ts ← tokenizeAux f cs.tail
        .ok (.dstar :: ts)
      else do
        let ts ← tokenizeAux f cs
        .ok (.star :: ts)
    else if c = '/' then
      if cs.head? = some '/' then do
        let ts ← tokenizeAux f cs.tail
        .ok (.dslash :: ts)
      else do
        let ts ← tokenizeAux f cs
        .ok (.slash :: ts)
    else if c = '%' then do
      let ts ← tokenizeAux f cs
      .ok (.percent :: ts)
    else if c = '(' then do
      let ts ← tokenizeAux f cs
      .ok (.lpar :: ts)
    else if c = ')' then do
      let ts ← tokenizeAux f cs
      .ok (.rpar :: ts)
    else .error .invalidSyntax

/-- Tokenize a whole string. -/
def tokenize (s : Str) : Except ArithError (List Tok) :=
  tokenizeAux s.length s

/- Recursive-descent parser with the Python expression grammar over the
   reachable tokens: + and - bind loosest and associate left, then
   * / // %, then unary + -, then ** binding tightest and associating
   right with unary operators allowed in its right operand.  Each
   function takes fuel and consumes at least one unit per call, so any
   fuel beyond a small multiple of the token count is enough. -/

mutual

/-- Parse a sum: a chain of terms joined by + and -. -/
def pExpr : Nat → List Tok → Except ArithError (PyExpr × List Tok)
  | 0, _ => .error .invalidSyntax
  | f + 1, ts => do
    let (l, ts1) ← pTerm f ts
    pExprTail f l ts1

/-- Left-associative continuation of a sum. -/
def pExprTail : Nat → PyExpr → List Tok → Except ArithError (PyExpr × List Tok)
  | 0, _, _ => .error .invalidSyntax
  | f + 1, acc, .plus :: ts => do
    let (r, ts1) ← pTerm f ts
    pExprTail f (.binOp .add acc r) ts1
  | f + 1, acc, .minus :: ts => do
    let (r, ts1) ← pTerm f ts
    pExprTail f (.binOp .sub acc r) ts1
  | _ + 1, acc, ts => .ok (acc, ts)

/-- Parse a product: a chain of factors joined by * / // %. -/
def pTerm : Nat → List Tok → Except ArithError (PyExpr × List Tok)
  | 0, _ => .error .invalidSyntax
  | f + 1, ts => do
    let (l, ts1) ← pFactor f ts
    pTermTail f l ts1

/-- Left-associative continuation of a product. -/
def pTermTail : Nat → PyExpr → List Tok → Except ArithError (PyExpr × List Tok)
  | 0, _, _ => .error .invalidSyntax
  | f + 1, acc, .star :: ts => do
    let (r, ts1) ← pFactor f ts
    pTermTail f (.binOp .mult acc r) ts1
  | f + 1, acc, .slash :: ts => do
    let (r, ts1) ← pFactor f ts
    pTermTail f (.binOp .div acc r) ts1
  | f + 1, acc, .dslash :: ts => do
    let (r, ts1) ← pFactor f ts
    pTermTail f (.binOp .floorDiv acc r) ts1
  | f + 1, acc, .percent :: ts => do
    let (r, ts1) ← pFactor f ts
    pTermTail f (.binOp .mod acc r) ts1
  | _ + 1, acc, ts => .ok (acc, ts)

/-- Parse a factor: unary signs applied to a power. -/
def pFactor : Nat → List Tok → Except ArithError (PyExpr × List Tok)
  | 0, _ => .error .invalidSyntax
  | f + 1, .plus :: ts => do
    let (e, ts1) ← pFactor f ts
    .ok (.unaryOp .uadd e, ts1)
  | f + 1, .minus :: ts => do
    let (e, ts1) ← pFactor f ts
    .ok (.unaryOp .usub e, ts1)
  | f + 1, ts => pPower f ts

/-- Parse a power: an atom optionally raised with ** to a factor. -/
def pPower : Nat → List Tok → Except ArithError (PyExpr × List Tok)
  | 0, _ => .error .invalidSyntax
  | f + 1, ts => do
    let (a, ts1) ← pAtom f ts
    match ts1 with
    | .dstar :: ts2 => do
      let (b, ts3) ← pFactor f ts2
      .ok (.binOp .pow a b, ts3)
    | _ => .ok (a, ts1)

/-- Parse an atom: a number, the empty tuple, or a parenthesized sum. -/
def pAtom : Nat → List Tok → Except ArithError (PyExpr × List Tok)
  | 0, _ => .error .invalidSyntax
  | _ + 1, .num q :: ts => .ok (.const q, ts)
  | _ + 1, .lpar :: .rpar :: ts => .ok (.tuple0, ts)
  | f + 1, .lpar :: ts => do
    let (e, ts1) ← pExpr f ts
    match ts1 with
    | .rpar :: ts2 => .ok (e, ts2)
    | _ => .error .invalidSyntax
  | _ + 1, _ => .error .invalidSyntax

end

/-- Parse a token list as a complete expression. -/
def parseToks (ts : List Tok) : Except ArithError PyExpr := do
  let (e, rem) ← pExpr (7 * ts.length + 10) ts
  match rem with
  | [] => .ok e
  | _ :: _ => .error .invalidSyntax

/-- safe_eval from main.py: remove commas, strip whitespace, reject the
    empty string, parse, and walk the tree.  Parse failures correspond to
    the ValueError "Invalid expression syntax". -/
def safe_eval (s : Str) : Except ArithError Q :=
  let s1 := strip (s.filter (fun c => c ≠ ','))
  if s1.isEmpty then .error .emptyExpression
  else do
    let toks ← tokenize s1
    let ast ← parseToks toks
    evalNode ast

/-- The character whitelist from handle_user_command:
    allowed_chars = set("0123456789+-*/(). %"). -/
def allowedChars : Str := str "0123456789+-*/(). %"

/-- The contract of section 4.2 of the spec: the whitelist gate checked
    in handle_user_command before safe_eval is invoked, followed by
    safe_eval itself.  When the gate fails the evaluator is never
    entered, so no part of the expression is parsed or evaluated. -/
def evaluate (s : Str) : Except ArithError Q :=
  if s.all (fun c => allowedChars.contains c) then safe_eval s
  else .error .disallowedCharacter

deriving instance DecidableEq for Except

example : evaluate (str "23 * 7") = .ok ⟨161, 1⟩ := by decide
example : evaluate (str "10 / 0") = .error .divisionByZero := by decide
example : evaluate (str "10 % 0") = .error .divisionByZero := by decide
example : evaluate (str "the moon") = .error .disallowedCharacter := by decide
example : evaluate (str "") = .error .emptyExpression := by decide
example : evaluate (str "2 ** 3 ** 2") = .ok ⟨512, 1⟩ := by decide
example : evaluate (str "10 // 3") = .error .disallowedConstruct := by decide
example : evaluate (str "()") = .error .disallowedConstruct := by decide
example : evaluate (str "1 +") = .error .invalidSyntax := by decide
example : evaluate (str "010") = .error .invalidSyntax := by decide
example : evaluate (str "-2 ** 2") = .ok ⟨-4, 1⟩ := by decide
example : evaluate (str "1,000 + 1") = .error .disallowedCharacter := by decide
example : evaluate (str "(1 + 2) * 3.5") = .ok ⟨105, 10⟩ := by decide
example : evaluate (str "7 % 3") = .ok ⟨1, 1⟩ := by decide
example : evaluate (str "2 ** -1") = .ok ⟨1, 2⟩ := by decide
example : evaluate (str "10 / 4") = .ok ⟨10, 4⟩ := by decide

/- ------------------------------------------------------------------
   Intent classifier.
   handle_user_command in main.py decides what the user meant by a
   fixed sequence of rules: polite exit words, open-website commands,
   an arithmetic attempt, prefixed definition queries, a short-phrase
   definition fallback, and a final apology.  The pure decision
   structure is modelled here as a total function to the Intent type of
   the spec; the speech, browser and lookup side effects are outside
   the model.
   ------------------------------------------------------------------ -/

/-- Sites the assistant can open. -/
inductive Site where
  | google | youtube
deriving DecidableEq, Repr

/-- The Intent data model of section 3 of the spec. -/
inductive Intent where
  | exit
  | openSite (s : Site)
  | arithmetic (expression : Str)
  | definition (term : Str)
  | unknown
deriving DecidableEq, Repr

/-- Python str.lower, character by character (ASCII case mapping). -/
def lowerStr (s : Str) : Str := s.map Char.toLower

/-- Python str.split() with no argument: maximal runs of non-whitespace
    characters.  Only the number of words matters to the classifier.
    The first argument accumulates the current word in reverse. -/
def splitWsAux (acc : Str) : Str → List Str
  | [] => if acc.isEmpty then [] else [acc.reverse]
  | c :: cs =>
    if isPySpace c then
      if acc.isEmpty then splitWsAux [] cs
      else acc.reverse :: splitWsAux [] cs
    else splitWsAux (c :: acc) cs

/-- Python str.split() with no argument. -/
def splitWs (s : Str) : List Str := splitWsAux [] s

example : splitWs (str "  what is  the moon ") =
    [str "what", str "is", str "the", str "moon"] := by decide

/-- The polite-exit words; any of them as a substring triggers exit. -/
def exitWords : List Str :=
  [str "exit", str "quit", str "stop", str "goodbye", str "bye"]

/-- The operator words and symbols of is_probably_arithmetic. -/
def operatorWords : List Str :=
  [ str "+", str "-", str "*", str "/", str "%"
  , str "plus", str "minus", str "times", str "divided", str "divide"
  , str "over", str "mod", str "power", str "**" ]

/-- is_probably_arithmetic from main.py: the text contains a digit or
    one of the operator words as a substring. -/
def is_probably_arithmetic (t : Str) : Bool :=
  t.any Char.isDigit || operatorWords.any (fun w => containsSub w t)

/-- The trigger words that start an arithmetic attempt, in the order
    the detection test lists them. -/
def arithTriggers : List Str :=
  [str "calculate", str "what is", str "evaluate", str "compute"]

/-- The trigger words in the order the stripping loop checks them
    (note the source orders the two lists differently). -/
def stripTriggerOrder : List Str :=
  [str "calculate", str "evaluate", str "compute", str "what is"]

/-- The arithmetic rule fires when the heuristic matches or the text
    starts with a trigger word. -/
def arithHeuristic (t : Str) : Bool :=
  is_probably_arithmetic t || arithTriggers.any (fun p => p.isPrefixOf t)

/-- Remove the first matching leading trigger word and strip the
    remainder, as the loop with break in handle_user_command does. -/
def stripTrigger (t : Str) : Str :=
  match stripTriggerOrder.find? (fun p => p.isPrefixOf t) with
  | some p => strip (t.drop p.length)
  | none => t

/-- The arithmetic attempt: when the rule fires, normalize the
    expression and run it through the whitelist gate and safe_eval
    (the evaluate contract); a successful value means the Intent is
    arithmetic, any failure means the classifier falls through. -/
def arithValue (t : Str) : Option Q :=
  if arithHeuristic t then
    match evaluate (normalize (stripTrigger t)) with
    | .ok v => some v
    | .error _ => none
  else none

/-- The definition-query prefixes, in source order.  The fourth one is
    the contraction of what is, spelled with an apostrophe. -/
def defPrefixes : List Str :=
  [ str "define "
  , str "definition of "
  , str "what is "
  , str "what" ++ [Char.ofNat 39] ++ str "s "
  , str "tell me about " ]

/-- Strip the leading articles a, an, the, each checked once in order
    (the source loop has no break, so several can strip in turn). -/
def stripArticles (t : Str) : Str :=
  let t1 := if (str "a ").isPrefixOf t then t.drop 2 else t
  let t2 := if (str "an ").isPrefixOf t1 then t1.drop 3 else t1
  if (str "the ").isPrefixOf t2 then t2.drop 4 else t2

/-- The prefixed-definition rule: the term extracted from the first
    matching prefix, if any. -/
def defPrefixTerm (t : Str) : Option Str :=
  (defPrefixes.find? (fun p => p.isPrefixOf t)).map
    (fun p => stripArticles (strip (t.drop p.length)))

/-- The rules after the arithmetic attempt: prefixed definition (where
    an empty term is the clarification prompt of the source, modelled
    as unknown), then the at-most-three-words definition fallback, then
    the final apology (unknown). -/
def postArith (t : Str) : Intent :=
  match defPrefixTerm t with
  | some term => if term.isEmpty then .unknown else .definition term
  | none => if (splitWs t).length ≤ 3 then .definition t else .unknown

/-- The polite-exit rule: any exit word occurs as a substring. -/
def isExitText (t : Str) : Bool := exitWords.any (fun w => containsSub w t)

/-- The open-YouTube rule: contains open youtube, or is exactly
    youtube. -/
def isOpenYoutube (t : Str) : Bool :=
  containsSub (str "open youtube") t || t = str "youtube"

/-- The open-Google rule: contains open google, or is exactly
    google. -/
def isOpenGoogle (t : Str) : Bool :=
  containsSub (str "open google") t || t = str "google"

/-- The classifier on the stripped, lowercased text, in the rule order
    of handle_user_command.  A successful arithmetic attempt carries
    the text, per the data model of section 3 of the spec. -/
def classifyStripped (t : Str) : Intent :=
  if isExitText t then .exit
  else if isOpenYoutube t then .openSite .youtube
  else if isOpenGoogle t then .openSite .google
  else
    match arithValue t with
    | some _ => .arithmetic t
    | none => postArith t

/-- classify: total classification of a raw utterance, stripping and
    lowercasing first as handle_user_command does.  The source answers
    an empty utterance with a clarification prompt before classifying;
    that early return is modelled as unknown. -/
def classify (c : Str) : Intent :=
  if c.isEmpty then .unknown else classifyStripped (strip (lowerStr c))

example : classify (str "stop") = .exit := by decide
example : classify (str "exit now") = .exit := by decide
example : classify (str "open youtube") = .openSite .youtube := by decide
example : classify (str "youtube") = .openSite .youtube := by decide
example : classify (str "open google") = .openSite .google := by decide
example : classify (str "what is 23 times 7") =
    .arithmetic (str "what is 23 times 7") := by decide
example : classify (str "calculate 23 times 7") =
    .arithmetic (str "calculate 23 times 7") := by decide
example : classify (str "define recursion") = .definition (str "recursion") := by decide
example : classify (str "what is the moon") = .definition (str "moon") := by decide
example : classify (str "xyzzy") = .definition (str "xyzzy") := by decide
example : classify (str "please describe it to me now") = .unknown := by decide

/- ------------------------------------------------------------------
   Session controller.
   The main loop of main.py waits for an utterance, requires the wake
   word, and on a bare wake word prompts and runs a bounded retry loop:
   for attempt in range(MAX_RETRIES): listen; if something was heard,
   handle it and break; else speak a retry prompt.  One outer-loop
   iteration is modelled as a function from the heard utterance and the
   sequence of follow-up listen results to the list of observable
   actions and the session-ended flag.
   ------------------------------------------------------------------ -/

/-- MAX_RETRIES from the configuration block of main.py. -/
def MAX_RETRIES : Nat := 2

/-- WAKE_WORD from the configuration block of main.py. -/
def WAKE_WORD : Str := str "assistant"

/-- Observable actions of one loop iteration: the yes-prompt after a
    bare wake word, the did-not-catch retry prompt, dispatching a
    command to handle_user_command, and the log note when the wake word
    is missing. -/
inductive Act where
  | promptYes
  | reprompt
  | handled (i : Intent)
  | noteNoWake
deriving DecidableEq, Repr

/-- Python spoken.split(WAKE_WORD, 1)[1]: everything after the first
    occurrence of the separator (empty when there is none, a case the
    caller has excluded). -/
def afterFirst (p : Str) : Str → Str
  | [] => []
  | c :: cs =>
    if p.isPrefixOf (c :: cs) then (c :: cs).drop p.length
    else afterFirst p cs

example : afterFirst (str "assistant") (str "hey assistant what is 2") =
    str " what is 2" := by decide

/-- The retry loop, one Option per listen attempt: a first argument of
    n models range(n) attempts remaining; each silent listen speaks the
    retry prompt and continues, a heard utterance is handled and breaks
    the loop, and the flag records whether handling asked to exit. -/
def retryActs : Nat → List (Option Str) → List Act × Bool
  | 0, _ => ([], false)
  | _ + 1, [] => ([], false)
  | _ + 1, some f :: _ => ([.handled (classify f)], classify f = Intent.exit)
  | n + 1, none :: rest =>
    let r := retryActs n rest
    (.reprompt :: r.1, r.2)

/-- One iteration of the main loop from the Idle state: ignore silence,
    require the wake word, prompt and run the retry loop when the
    utterance is the bare wake word, otherwise handle the remainder at
    once.  Returns the observable actions and whether the session
    ended. -/
def idleStep (heard : Option Str) (followups : List (Option Str)) : List Act × Bool :=
  match heard with
  | none => ([], false)
  | some sp =>
    if containsSub WAKE_WORD sp then
      let after := strip (afterFirst WAKE_WORD sp)
      if after.isEmpty then
        let r := retryActs MAX_RETRIES followups
        (.promptYes :: r.1, r.2)
      else ([.handled (classify after)], classify after = Intent.exit)
    else ([.noteNoWake], false)

example : idleStep (some (str "assistant")) [none, none] =
    ([.promptYes, .reprompt, .reprompt], false) := by decide
example : idleStep (some (str "assistant what is 23 times 7")) [] =
    ([.handled (.arithmetic (str "what is 23 times 7"))], false) := by decide
example : idleStep (some (str "assistant goodbye")) [] =
    ([.handled .exit], true) := by decide
example : idleStep (some (str "hello there")) [] = ([.noteNoWake], false) := by decide

/- ------------------------------------------------------------------
   A family of valid expressions for the correctness claim about the
   evaluator: abstract expression trees over decimal integer literals
   and the eight allowed operators, rendered as fully parenthesized
   strings, together with their mathematical value.
   ------------------------------------------------------------------ -/

/-- Abstract expressions over decimal literals and the eight allowed
    operators (six binary, two unary). -/
inductive SExpr where
  | num (n : Nat)
  | neg (e : SExpr)
  | pos (e : SExpr)
  | add (l r : SExpr)
  | sub (l r : SExpr)
  | mul (l r : SExpr)
  | div (l r : SExpr)
  | mod (l r : SExpr)
  | pow (l r : SExpr)
deriving DecidableEq, Repr

/-- Node count of an abstract expression, used for fuel bounds. -/
def sz : SExpr → Nat
  | .num _ => 1
  | .neg e => sz e + 1
  | .pos e => sz e + 1
  | .add l r => sz l + sz r + 1
  | .sub l r => sz l + sz r + 1
  | .mul l r => sz l + sz r + 1
  | .div l r => sz l + sz r + 1
  | .mod l r => sz l + sz r + 1
  | .pow l r => sz l + sz r + 1

/-- Decimal digits of a natural number, most significant first; the
    fuel argument only needs to be at least the number of digits. -/
def natDigitsAux : Nat → Nat → Str
  | 0, _ => []
  | _ + 1, 0 => []
  | f + 1, n + 1 => natDigitsAux f ((n + 1) / 10) ++ [Nat.digitChar ((n + 1) % 10)]

/-- Decimal rendering of a natural number. -/
def natDigits (n : Nat) : Str := if n = 0 then ['0'] else natDigitsAux n n

example : natDigits 230 = str "230" := by decide
example : natDigits 0 = str "0" := by decide

/-- Fully parenthesized rendering of an abstract expression as a string
    of the concrete grammar. -/
def render : SExpr → Str
  | .num n => natDigits n
  | .neg e => '(' :: '-' :: (render e ++ [')'])
  | .pos e => '(' :: '+' :: (render e ++ [')'])
  | .add l r => '(' :: (render l ++ '+' :: (render r ++ [')']))
  | .sub l r => '(' :: (render l ++ '-' :: (render r ++ [')']))
  | .mul l r => '(' :: (render l ++ '*' :: (render r ++ [')']))
  | .div l r => '(' :: (render l ++ '/' :: (render r ++ [')']))
  | .mod l r => '(' :: (render l ++ '%' :: (render r ++ [')']))
  | .pow l r => '(' :: (render l ++ '*' :: '*' :: (render r ++ [')']))

/-- The token string of a rendered expression. -/
def tokRender : SExpr → List Tok
  | .num n => [.num ⟨(n : Int), 1⟩]
  | .neg e => .lpar :: .minus :: (tokRender e ++ [.rpar])
  | .pos e => .lpar :: .plus :: (tokRender e ++ [.rpar])
  | .add l r => .lpar :: (tokRender l ++ .plus :: (tokRender r ++ [.rpar]))
  | .sub l r => .lpar :: (tokRender l ++ .minus :: (tokRender r ++ [.rpar]))
  | .mul l r => .lpar :: (tokRender l ++ .star :: (tokRender r ++ [.rpar]))
  | .div l r => .lpar :: (tokRender l ++ .slash :: (tokRender r ++ [.rpar]))
  | .mod l r => .lpar :: (tokRender l ++ .percent :: (tokRender r ++ [.rpar]))
  | .pow l r => .lpar :: (tokRender l ++ .dstar :: (tokRender r ++ [.rpar]))

/-- The Python AST a rendered expression parses to. -/
def toPy : SExpr → PyExpr
  | .num n => .const ⟨(n : Int), 1⟩
  | .neg e => .unaryOp .usub (toPy e)
  | .pos e => .unaryOp .uadd (toPy e)
  | .add l r => .binOp .add (toPy l) (toPy r)
  | .sub l r => .binOp .sub (toPy l) (toPy r)
  | .mul l r => .binOp .mult (toPy l) (toPy r)
  | .div l r => .binOp .div (toPy l) (toPy r)
  | .mod l r => .binOp .mod (toPy l) (toPy r)
  | .pow l r => .binOp .pow (toPy l) (toPy r)

/-- The mathematical value of an abstract expression, as a relation:
    field operations over the exact rationals, Python modulo as
    x - y * floor (x / y), and powers with an integer exponent.  The
    side conditions exclude division and modulo by zero and zero raised
    to a negative power, the cases the evaluator reports as errors, and
    fractional exponents, whose value is irrational. -/
inductive SDenote : SExpr → ℚ → Prop where
  | num (n : Nat) : SDenote (.num n) n
  | neg {e v} : SDenote e v → SDenote (.neg e) (-v)
  | pos {e v} : SDenote e v → SDenote (.pos e) v
  | add {l r a b} : SDenote l a → SDenote r b → SDenote (.add l r) (a + b)
  | sub {l r a b} : SDenote l a → SDenote r b → SDenote (.sub l r) (a - b)
  | mul {l r a b} : SDenote l a → SDenote r b → SDenote (.mul l r) (a * b)
  | div {l r a b} : SDenote l a → SDenote r b → b ≠ 0 →
      SDenote (.div l r) (a / b)
  | mod {l r a b} : SDenote l a → SDenote r b → b ≠ 0 →
      SDenote (.mod l r) (a - b * ⌊a / b⌋)
  | pow {l r a b} (k : ℤ) : SDenote l a → SDenote r b → b = (k : ℚ) →
      (a = 0 → 0 ≤ k) → SDenote (.pow l r) (a ^ k)

/-- Well-formedness of a fraction: nonzero denominator.  Every value
    the evaluator produces satisfies it. -/
def Q.good (q : Q) : Prop := q.den ≠ 0

/- ==================================================================
   Claim theorems.
   ================================================================== -/

/-- C1: for every input string containing at least one character
    outside the whitelist of digits, + - * / ( ) . space %, the
    evaluator fails with disallowedCharacter.  The gate is the first
    test of evaluate, so safe_eval is never entered and no part of the
    expression is parsed or evaluated. -/
theorem evaluate_error_of_char_outside_whitelist (s : Str) (c : Char)
    (hc : c ∈ s) (hw : c ∉ allowedChars) :
    evaluate s = .error .disallowedCharacter := by
  have hall : s.all (fun x => allowedChars.contains x) = false := by
    rw [List.all_eq_false]
    refine ⟨c, hc, ?_⟩
    simp only [List.contains_eq_any_beq, List.any_eq_true, not_exists, not_and,
      Bool.not_eq_true]
    intro x hx
    by_cases hxc : c = x
    · exact absurd (hxc ▸ hx) hw
    · simp [beq_eq_false_iff_ne, Ne, hxc]
  unfold evaluate
  rw [hall]
  simp

/-- Witness for C1 at a concrete input: the letter x is outside the
    whitelist, so evaluating the string 2 + x reports the disallowed
    character. -/
theorem evaluate_error_of_char_outside_whitelist_witness :
    'x' ∈ str "2 + x" ∧ 'x' ∉ allowedChars ∧
      evaluate (str "2 + x") = .error .disallowedCharacter :=
  ⟨by decide, by decide,
    evaluate_error_of_char_outside_whitelist (str "2 + x") 'x' (by decide) (by decide)⟩

/-- C3: dividing by zero and taking a modulus by zero are reported as
    divisionByZero results of the total function evaluate, not
    propagated as a fault: in the source the ZeroDivisionError raised
    inside safe_eval is caught by the surrounding try of
    handle_user_command; in the model the error is an ordinary
    value. -/
theorem evaluate_division_by_zero :
    evaluate (str "10 / 0") = .error .divisionByZero ∧
      evaluate (str "10 % 0") = .error .divisionByZero := by decide

/-- C4: the arithmetic rule is checked before the generic
    definition-prefix rule, so the classifier maps the text
    "what is 23 times 7" to the Arithmetic intent whose expression
    evaluates to 161 — even though the definition rule would also have
    matched with the literal term "23 times 7", as the last conjunct
    records. -/
theorem classify_arithmetic_before_definition :
    classify (str "what is 23 times 7") = .arithmetic (str "what is 23 times 7") ∧
      arithValue (str "what is 23 times 7") = some ⟨161, 1⟩ ∧
      normalize (stripTrigger (str "what is 23 times 7")) = str "23 * 7" ∧
      evaluate (str "23 * 7") = .ok ⟨161, 1⟩ ∧
      defPrefixTerm (str "what is 23 times 7") = some (str "23 times 7") := by
  decide

/-- C7, counterexample: the source applies the ten replacements in the
    insertion order of its dict, which differs observably from the
    order the spec lists.  On the text 2 to the power of plus 3 the
    source first rewrites plus and then the power phrase, while the
    spec order rewrites the power phrase first, after which plus is no
    longer surrounded by spaces and survives. -/
theorem normalize_order_differs_from_spec_order :
    normalize (str "2 to the power of plus 3") = str "2**+ 3" ∧
      normalizeSpecOrder (str "2 to the power of plus 3") = str "2**plus 3" ∧
      normalize (str "2 to the power of plus 3") ≠
        normalizeSpecOrder (str "2 to the power of plus 3") := by decide

/-- C7, amended: normalize applies exactly the ten replacements, in the
    source order plus, minus, times, multiplied by, divided by, over,
    mod, modulo, to the power of, power of, on the text padded with one
    space on each side, and strips the result. -/
theorem normalize_applies_replacements_in_source_order (t : Str) :
    normalize t =
      strip (replaceL (str " power of ") (str "**")
        (replaceL (str " to the power of ") (str "**")
          (replaceL (str " modulo ") (str " % ")
            (replaceL (str " mod ") (str " % ")
              (replaceL (str " over ") (str " / ")
                (replaceL (str " divided by ") (str " / ")
                  (replaceL (str " multiplied by ") (str " * ")
                    (replaceL (str " times ") (str " * ")
                      (replaceL (str " minus ") (str " - ")
                        (replaceL (str " plus ") (str " + ")
                          (' ' :: t ++ [' ']))))))))))) := by
  simp only [normalize, applyRepls, replacements, List.foldl_cons, List.foldl_nil]

/-- C8, counterexample: the normalizer is not idempotent.  On
    1 plus plus 2 the first pass rewrites only the first plus, because
    scanning resumes after the replacement, and the second pass then
    rewrites the survivor. -/
theorem normalize_not_idempotent :
    normalize (str "1 plus plus 2") = str "1 + plus 2" ∧
      normalize (normalize (str "1 plus plus 2")) = str "1 + + 2" ∧
      normalize (normalize (str "1 plus plus 2")) ≠ normalize (str "1 plus plus 2") := by
  decide

/-- C9: from Idle, a bare wake word prompts and enters the follow-up
    retry loop; when all MAX_RETRIES subsequent listens yield no
    understood speech the controller returns to Idle without
    dispatching any intent, re-prompting after each silent listen while
    retries remain (each of the MAX_RETRIES listens happens with
    retries remaining) and, once they are exhausted, abandoning
    silently: the action trace is exactly the prompt followed by
    MAX_RETRIES re-prompts, with nothing further emitted and no
    handled intent anywhere in it. -/
theorem wake_word_alone_then_silent_retries (fups : List (Option Str))
    (hlen : fups.length = MAX_RETRIES) (hnone : ∀ x ∈ fups, x = none) :
    idleStep (some WAKE_WORD) fups =
      (Act.promptYes :: List.replicate MAX_RETRIES Act.reprompt, false) ∧
      ∀ i : Intent, Act.handled i ∉ (idleStep (some WAKE_WORD) fups).1 := by
  cases fups with
  | nil => simp [MAX_RETRIES] at hlen
  | cons a rest =>
    cases rest with
    | nil => simp [MAX_RETRIES] at hlen
    | cons b rest2 =>
      cases rest2 with
      | cons x r => simp [MAX_RETRIES] at hlen
      | nil =>
        have ha : a = none := hnone a (by simp)
        have hb : b = none := hnone b (by simp)
        subst ha
        subst hb
        refine ⟨by decide, ?_⟩
        intro i
        have hstep : idleStep (some WAKE_WORD) [none, none] =
            ([.promptYes, .reprompt, .reprompt], false) := by decide
        rw [hstep]
        simp

/-- Witness for C9, at the concrete all-silent run of length
    MAX_RETRIES. -/
theorem wake_word_alone_then_silent_retries_witness :
    ([none, none] : List (Option Str)).length = MAX_RETRIES ∧
      idleStep (some WAKE_WORD) [none, none] =
        (Act.promptYes :: List.replicate MAX_RETRIES Act.reprompt, false) :=
  ⟨by decide,
    (wake_word_alone_then_silent_retries [none, none] (by decide) (by decide)).1⟩

/-- C5: when the arithmetic rule fires but the normalized expression
    fails the whitelist gate or fails to evaluate, classification falls
    through to the rules after the arithmetic attempt instead of
    returning early; concretely, what is the moon strips the prefix and
    the article and becomes a definition lookup for moon. -/
theorem classify_falls_through_to_definition_rules :
    (∀ (t : Str) (e : ArithError), isExitText t = false →
      isOpenYoutube t = false → isOpenGoogle t = false →
      arithHeuristic t = true →
      evaluate (normalize (stripTrigger t)) = .error e →
      classifyStripped t = postArith t) ∧
    classify (str "what is the moon") = .definition (str "moon") := by
  constructor
  · intro t e h1 h2 h3 h4 h5
    unfold classifyStripped arithValue
    rw [h1, h2, h3, h4, h5]
    simp
  · decide

/-- Witness for C5 at the concrete input what is the moon, whose
    stripped expression the moon fails the whitelist gate. -/
theorem classify_falls_through_witness :
    arithHeuristic (str "what is the moon") = true ∧
      evaluate (normalize (stripTrigger (str "what is the moon"))) =
        .error .disallowedCharacter ∧
      classifyStripped (str "what is the moon") = postArith (str "what is the moon") :=
  ⟨by decide, by decide,
    classify_falls_through_to_definition_rules.1 (str "what is the moon")
      .disallowedCharacter (by decide) (by decide) (by decide) (by decide) (by decide)⟩

/-- C6: a text matching none of the exit, site, arithmetic or
    definition-prefix rules, with at most three whitespace-separated
    words, classifies as a Definition of the whole text, never Unknown;
    concretely xyzzy becomes a definition lookup for xyzzy. -/
theorem classify_short_text_is_definition :
    (∀ t : Str, isExitText t = false →
      isOpenYoutube t = false → isOpenGoogle t = false →
      arithValue t = none → defPrefixTerm t = none →
      (splitWs t).length ≤ 3 →
      classifyStripped t = .definition t) ∧
    classify (str "xyzzy") = .definition (str "xyzzy") := by
  constructor
  · intro t h1 h2 h3 h4 h5 h6
    unfold classifyStripped postArith
    rw [h1, h2, h3, h4, h5]
    simp [h6]
  · decide

/-- Witness for C6 at the concrete single-word input xyzzy. -/
theorem classify_short_text_is_definition_witness :
    arithValue (str "xyzzy") = none ∧
      defPrefixTerm (str "xyzzy") = none ∧
      classifyStripped (str "xyzzy") = .definition (str "xyzzy") :=
  ⟨by decide, by decide,
    classify_short_text_is_definition.1 (str "xyzzy") (by decide) (by decide)
      (by decide) (by decide) (by decide) (by decide)⟩

/- Helper lemmas about replacement and stripping, shared by the
   normalizer and classifier proofs. -/

/-- Replacing a pattern that does not occur leaves the string
    unchanged. -/
theorem replAux_of_not_contains (p v : Str) :
    ∀ (f : Nat) (s : Str), s.length ≤ f → containsSub p s = false →
      replAux p v f s = s := by
  intro f
  induction f with
  | zero =>
    intro s hl _
    cases s with
    | nil => rfl
    | cons c cs => simp at hl
  | succ f ih =>
    intro s hl hc
    cases s with
    | nil => rfl
    | cons c cs =>
      unfold containsSub at hc
      rw [Bool.or_eq_false_iff] at hc
      unfold replAux
      rw [if_neg (by simp [hc.1])]
      exact congrArg (c :: ·) (ih cs (by simpa using Nat.le_of_succ_le_succ hl) hc.2)

/-- str.replace with an absent pattern is the identity. -/
theorem replaceL_of_not_contains (p v s : Str) (h : containsSub p s = false) :
    replaceL p v s = s :=
  replAux_of_not_contains p v s.length s le_rfl h

/-- A replacement chain whose patterns are all absent is the
    identity. -/
theorem applyRepls_of_not_contains (rs : List (Str × Str)) (s : Str)
    (h : ∀ pv ∈ rs, containsSub pv.1 s = false) : applyRepls rs s = s := by
  induction rs with
  | nil => rfl
  | cons a rest ih =>
    unfold applyRepls
    rw [List.foldl_cons, replaceL_of_not_contains a.1 a.2 s (h a (by simp))]
    exact ih fun pv hpv => h pv (by simp [hpv])

/-- The right strip is Mathlib's rdropWhile. -/
theorem stripRight_eq_rdropWhile (s : Str) :
    stripRight s = List.rdropWhile isPySpace s := rfl

/-- A left strip of a fully stripped string changes nothing. -/
theorem stripLeft_strip (s : Str) : stripLeft (strip s) = strip s := by
  unfold strip
  cases hu : stripRight (stripLeft s) with
  | nil => rfl
  | cons c rest =>
    have hpre : stripRight (stripLeft s) <+: stripLeft s := by
      rw [stripRight_eq_rdropWhile]
      exact List.rdropWhile_prefix isPySpace (stripLeft s)
    rw [hu] at hpre
    obtain ⟨tail, htail⟩ := hpre
    have hidem : List.dropWhile isPySpace (stripLeft s) = stripLeft s :=
      List.dropWhile_idempotent isPySpace s
    have hc : isPySpace c = false := by
      by_contra hcon
      rw [Bool.not_eq_false] at hcon
      rw [← htail, List.cons_append, List.dropWhile_cons, if_pos hcon] at hidem
      have hlen := congrArg List.length hidem
      have hle := (List.dropWhile_sublist (l := rest ++ tail) isPySpace).length_le
      rw [List.length_cons] at hlen
      omega
    unfold stripLeft
    rw [List.dropWhile_cons, if_neg (by simp [hc])]

/-- The right strip is idempotent. -/
theorem stripRight_idem (u : Str) : stripRight (stripRight u) = stripRight u := by
  rw [stripRight_eq_rdropWhile, stripRight_eq_rdropWhile]
  exact List.rdropWhile_idempotent isPySpace u

/-- A right strip of a fully stripped string changes nothing. -/
theorem stripRight_strip (s : Str) : stripRight (strip s) = strip s :=
  stripRight_idem (stripLeft s)

/-- A trailing space disappears under the right strip. -/
theorem stripRight_append_space (x : Str) :
    stripRight (x ++ [' ']) = stripRight x := by
  rw [stripRight_eq_rdropWhile, stripRight_eq_rdropWhile]
  exact List.rdropWhile_concat_pos isPySpace x ' ' (by decide)

/-- Stripping the padded form of a stripped string gives it back. -/
theorem strip_pad_strip (s : Str) : strip (' ' :: (strip s ++ [' '])) = strip s := by
  show stripRight (stripLeft (' ' :: (strip s ++ [' ']))) = strip s
  have h1 : stripLeft (' ' :: (strip s ++ [' '])) = stripLeft (strip s ++ [' ']) := by
    unfold stripLeft
    rw [List.dropWhile_cons, if_pos (by decide)]
  rw [h1]
  cases hx : strip s with
  | nil => rfl
  | cons a l =>
    have ha : isPySpace a = false := by
      have h2 := stripLeft_strip s
      rw [hx] at h2
      unfold stripLeft at h2
      rw [List.dropWhile_cons] at h2
      by_contra hcon
      rw [Bool.not_eq_false] at hcon
      rw [if_pos hcon] at h2
      have hle := (List.dropWhile_sublist (l := l) isPySpace).length_le
      have hlen := congrArg List.length h2
      rw [List.length_cons] at hlen
      omega
    have h3 : stripLeft ((a :: l) ++ [' ']) = (a :: l) ++ [' '] := by
      unfold stripLeft
      rw [List.cons_append, List.dropWhile_cons, if_neg (by simp [ha])]
    rw [h3, stripRight_append_space]
    have h4 := stripRight_strip s
    rw [hx] at h4
    exact h4

/-- C8, amended: the normalizer is idempotent on every input whose
    normalized form, once padded, no longer contains any spoken
    operator phrase; a second pass then replaces nothing and the
    final strip undoes the padding.  (The counterexample shows the
    unconditional claim fails when a phrase survives the first
    pass.) -/
theorem normalize_idempotent_of_no_phrase (t : Str)
    (h : ∀ pv ∈ replacements,
      containsSub pv.1 (' ' :: (normalize t ++ [' '])) = false) :
    normalize (normalize t) = normalize t := by
  have h1 : applyRepls replacements (' ' :: (normalize t ++ [' '])) =
      ' ' :: (normalize t ++ [' ']) := applyRepls_of_not_contains _ _ h
  show strip (applyRepls replacements (' ' :: (normalize t ++ [' ']))) = normalize t
  rw [h1]
  exact strip_pad_strip _

/-- Witness for C8 amended at the input 3 plus 4, whose normal form
    3 + 4 contains no spoken phrase. -/
theorem normalize_idempotent_witness :
    (∀ pv ∈ replacements,
      containsSub pv.1 (' ' :: (normalize (str "3 plus 4") ++ [' '])) = false) ∧
      normalize (normalize (str "3 plus 4")) = normalize (str "3 plus 4") :=
  ⟨by decide, normalize_idempotent_of_no_phrase (str "3 plus 4") (by decide)⟩

/- Helper lemmas for the nonempty-term claim: a stripped string ends in
   a non-space character, and stripping prefixes that end in a space
   cannot empty it. -/

/-- A nonempty stripped string ends in a non-space character. -/
theorem strip_getLast (s : Str) (h : strip s ≠ []) :
    ∃ c, (strip s).getLast? = some c ∧ isPySpace c = false := by
  have h2 : strip s = List.rdropWhile isPySpace (stripLeft s) :=
    stripRight_eq_rdropWhile _
  rw [h2] at h
  rw [show strip s = List.rdropWhile isPySpace (stripLeft s) from h2]
  refine ⟨(List.rdropWhile isPySpace (stripLeft s)).getLast h,
    List.getLast?_eq_getLast _ h, ?_⟩
  have := List.rdropWhile_last_not isPySpace (stripLeft s) h
  simpa using this

/-- A string containing a non-space character does not strip to
    empty. -/
theorem strip_ne_nil_of_mem (s : Str) (c : Char) (hc : c ∈ s)
    (hns : isPySpace c = false) : strip s ≠ [] := by
  intro hnil
  have hnil2 : List.rdropWhile isPySpace (stripLeft s) = [] := by
    rw [← stripRight_eq_rdropWhile]
    exact hnil
  have h1 : ∀ x ∈ List.dropWhile isPySpace s, isPySpace x = true :=
    List.rdropWhile_eq_nil_iff.mp hnil2
  have hsplit : c ∈ List.takeWhile isPySpace s ∨ c ∈ List.dropWhile isPySpace s := by
    rw [← List.mem_append, List.takeWhile_append_dropWhile]
    exact hc
  cases hsplit with
  | inl hmem => exact absurd (List.mem_takeWhile_imp hmem) (by simp [hns])
  | inr hmem => exact absurd (h1 c hmem) (by simp [hns])

/-- Dropping a prefix that ends in a space from a string that ends in a
    non-space character leaves a string that still ends in that
    character — in particular a nonempty one. -/
theorem stripArticle_getLast (art : Str) (u : Str) (hlast : art.getLast? = some ' ')
    (h : ∃ c, u.getLast? = some c ∧ isPySpace c = false) :
    ∃ c, (if art.isPrefixOf u then u.drop art.length else u).getLast? = some c ∧
      isPySpace c = false := by
  by_cases hp : art.isPrefixOf u
  · rw [if_pos hp]
    obtain ⟨c, hc1, hc2⟩ := h
    obtain ⟨rest, hrest⟩ := List.isPrefixOf_iff_prefix.mp hp
    cases rest with
    | nil =>
      rw [List.append_nil] at hrest
      rw [← hrest, hlast] at hc1
      cases hc1
      simp [isPySpace] at hc2
    | cons d ds =>
      have hdrop : u.drop art.length = d :: ds := by
        rw [← hrest]
        exact List.drop_left art (d :: ds)
      rw [hdrop]
      refine ⟨c, ?_, hc2⟩
      have happ : (art ++ d :: ds).getLast? = (d :: ds).getLast? :=
        List.getLast?_append_of_ne_nil art (by simp)
      rw [hrest] at happ
      exact happ.symm.trans hc1
  · rw [if_neg hp]
    exact h

/-- Stripping the three articles preserves ending in a non-space
    character. -/
theorem stripArticles_getLast (u : Str)
    (h : ∃ c, u.getLast? = some c ∧ isPySpace c = false) :
    ∃ c, (stripArticles u).getLast? = some c ∧ isPySpace c = false := by
  unfold stripArticles
  exact stripArticle_getLast (str "the ") _ (by decide)
    (stripArticle_getLast (str "an ") _ (by decide)
      (stripArticle_getLast (str "a ") _ (by decide) h))

/-- C10: every Definition produced by the prefixed-definition rule
    carries a nonempty term.  The classified text is stripped before
    the rule runs and each definition prefix ends in a space, so after
    removing the prefix and the optional articles a non-space character
    always remains; the empty-term clarification branch of the source
    is unreachable. -/
theorem prefixed_definition_term_nonempty (c0 term : Str)
    (h : defPrefixTerm (strip (lowerStr c0)) = some term) : term ≠ [] := by
  unfold defPrefixTerm at h
  cases hf : List.find? (fun p => p.isPrefixOf (strip (lowerStr c0))) defPrefixes with
  | none =>
    rw [hf] at h
    simp at h
  | some p =>
    rw [hf] at h
    simp only [Option.map_some'] at h
    have hpre : p.isPrefixOf (strip (lowerStr c0)) = true := by
      have := List.find?_some hf
      simpa using this
    have hmem : p ∈ defPrefixes := List.mem_of_find?_eq_some hf
    have hplast : p.getLast? = some ' ' := by
      fin_cases hmem <;> decide
    have hpne : p ≠ [] := by
      fin_cases hmem <;> decide
    obtain ⟨rest, hrest⟩ := List.isPrefixOf_iff_prefix.mp hpre
    have hdrop : (strip (lowerStr c0)).drop p.length = rest := by
      rw [← hrest]
      exact List.drop_left p rest
    have htne : strip (lowerStr c0) ≠ [] := by
      rw [← hrest]
      simp [hpne]
    obtain ⟨c, hc1, hc2⟩ := strip_getLast (lowerStr c0) htne
    have hrestne : rest ≠ [] := by
      intro hnil
      rw [hnil, List.append_nil] at hrest
      rw [← hrest, hplast] at hc1
      cases hc1
      simp [isPySpace] at hc2
    have hrestlast : rest.getLast? = some c := by
      rw [← hc1, ← hrest]
      exact (List.getLast?_append_of_ne_nil p hrestne).symm
    have hcrest : c ∈ rest := List.mem_of_getLast?_eq_some hrestlast
    have hsne : strip rest ≠ [] := strip_ne_nil_of_mem rest c hcrest hc2
    obtain ⟨d, hd1, hd2⟩ := strip_getLast rest hsne
    obtain ⟨e, he1, he2⟩ := stripArticles_getLast (strip rest) ⟨d, hd1, hd2⟩
    rw [hdrop] at h
    rw [Option.some.injEq] at h
    rw [h] at he1
    intro hterm
    rw [hterm] at he1
    simp at he1

/-- Witness for C10 at the concrete input what is the moon, whose term
    moon is nonempty. -/
theorem prefixed_definition_term_nonempty_witness :
    defPrefixTerm (strip (lowerStr (str "what is the moon"))) = some (str "moon") ∧
      str "moon" ≠ [] :=
  ⟨by decide,
    prefixed_definition_term_nonempty (str "what is the moon") (str "moon") (by decide)⟩

/- ------------------------------------------------------------------
   Correctness of the evaluator on rendered expressions (claim C2):
   digits, tokenizer, parser and evaluation in turn.
   ------------------------------------------------------------------ -/

/-- Every character a digit rendering produces is a decimal digit. -/
theorem natDigitsAux_digits (f : Nat) :
    ∀ (n : Nat) (c : Char), c ∈ natDigitsAux f n → c.isDigit = true := by
  induction f with
  | zero => intro n c hc; simp [natDigitsAux] at hc
  | succ f ih =>
    intro n c hc
    cases n with
    | zero => simp [natDigitsAux] at hc
    | succ m =>
      unfold natDigitsAux at hc
      rw [List.mem_append] at hc
      cases hc with
      | inl h => exact ih _ _ h
      | inr h =>
        rw [List.mem_singleton] at h
        subst h
        have hlt : (m + 1) % 10 < 10 := Nat.mod_lt _ (by omega)
        interval_cases h : (m + 1) % 10 <;> decide

/-- The rendering of zero digits is empty. -/
theorem natDigitsAux_zero (f : Nat) : natDigitsAux f 0 = [] := by
  cases f <;> rfl

/-- The numeric value of a digit character produced by digitChar. -/
theorem digitVal_digitChar (d : Nat) (h : d < 10) :
    digitVal (Nat.digitChar d) = d := by
  interval_cases d <;> decide

/-- Reading back the rendered digits gives the number. -/
theorem digitsToNat_natDigitsAux (f : Nat) :
    ∀ n : Nat, n < 10 ^ f → digitsToNat (natDigitsAux f n) = n := by
  induction f with
  | zero => intro n h; interval_cases n; rfl
  | succ f ih =>
    intro n h
    cases n with
    | zero => rw [natDigitsAux_zero]; rfl
    | succ m =>
      unfold natDigitsAux
      unfold digitsToNat
      rw [List.foldl_append]
      have h1 : (m + 1) / 10 < 10 ^ f := by
        rw [Nat.div_lt_iff_lt_mul (by omega)]
        calc m + 1 < 10 ^ (f + 1) := h
          _ = 10 ^ f * 10 := by ring
      have h2 := ih ((m + 1) / 10) h1
      unfold digitsToNat at h2
      rw [h2]
      simp only [List.foldl_cons, List.foldl_nil]
      rw [digitVal_digitChar _ (Nat.mod_lt _ (by omega))]
      omega

/-- Reading back a full digit rendering. -/
theorem digitsToNat_natDigits (n : Nat) : digitsToNat (natDigits n) = n := by
  unfold natDigits
  by_cases h : n = 0
  · rw [if_pos h, h]; rfl
  · rw [if_neg h]
    exact digitsToNat_natDigitsAux n n (Nat.lt_pow_self (by omega) n)

/-- The leading digit of a positive number is not the zero digit. -/
theorem natDigitsAux_head (f : Nat) :
    ∀ n : Nat, 0 < n → n < 10 ^ f →
      ∃ c, (natDigitsAux f n).head? = some c ∧ c ≠ '0' := by
  induction f with
  | zero => intro n h1 h2; omega
  | succ f ih =>
    intro n h1 h2
    cases n with
    | zero => omega
    | succ m =>
      unfold natDigitsAux
      by_cases hq : (m + 1) / 10 = 0
      · rw [hq, natDigitsAux_zero, List.nil_append]
        have hm : m + 1 < 10 := by omega
        have : (m + 1) % 10 = m + 1 := Nat.mod_eq_of_lt hm
        rw [this]
        refine ⟨Nat.digitChar (m + 1), rfl, ?_⟩
        have hm9 : m ≤ 8 := by omega
        interval_cases m <;> decide
      · have h1' : 0 < (m + 1) / 10 := Nat.pos_of_ne_zero hq
        have h2' : (m + 1) / 10 < 10 ^ f := by
          rw [Nat.div_lt_iff_lt_mul (by omega)]
          calc m + 1 < 10 ^ (f + 1) := h2
            _ = 10 ^ f * 10 := by ring
        obtain ⟨c, hc1, hc2⟩ := ih _ h1' h2'
        refine ⟨c, ?_, hc2⟩
        cases hd : natDigitsAux f ((m + 1) / 10) with
        | nil => rw [hd] at hc1; simp at hc1
        | cons a l =>
          rw [hd] at hc1
          simp only [List.head?_cons] at hc1
          rw [List.cons_append]
          simpa using hc1

/-- The digit rendering of a number is a valid Python integer
    literal. -/
theorem intValid_natDigits (n : Nat) : intValid (natDigits n) = true := by
  by_cases h : n = 0
  · rw [h]; decide
  · unfold natDigits
    rw [if_neg h]
    obtain ⟨c, hc1, hc2⟩ :=
      natDigitsAux_head n n (Nat.pos_of_ne_zero h) (Nat.lt_pow_self (by omega) n)
    cases hd : natDigitsAux n n with
    | nil => rw [hd] at hc1; simp at hc1
    | cons a l =>
      rw [hd] at hc1
      simp only [List.head?_cons, Option.some.injEq] at hc1
      subst hc1
      unfold intValid
      simp [List.headI, hc2]

/-- The digit rendering of a number is nonempty. -/
theorem natDigits_ne_nil (n : Nat) : natDigits n ≠ [] := by
  unfold natDigits
  by_cases h : n = 0
  · rw [if_pos h]; simp
  · rw [if_neg h]
    obtain ⟨c, hc1, _⟩ :=
      natDigitsAux_head n n (Nat.pos_of_ne_zero h) (Nat.lt_pow_self (by omega) n)
    intro hnil
    rw [hnil] at hc1
    simp at hc1

/-- Splitting a successful bind of Except computations. -/
theorem except_bind_ok {α β : Type} (x : Except ArithError α)
    (g : α → Except ArithError β) (out : β) (h : (x >>= g) = .ok out) :
    ∃ a, x = .ok a ∧ g a = .ok out := by
  cases x with
  | error e => simp [Bind.bind, Except.bind] at h
  | ok a => exact ⟨a, rfl, by simpa [Bind.bind, Except.bind] using h⟩

/-- More fuel never hurts the tokenizer. -/
theorem tokenizeAux_mono :
    ∀ (f : Nat) (s : Str) (out : List Tok),
      tokenizeAux f s = .ok out → tokenizeAux (f + 1) s = .ok out := by
  intro f
  induction f with
  | zero =>
    intro s out h
    cases s with
    | nil => exact h
    | cons c cs => simp [tokenizeAux] at h
  | succ f ih =>
    intro s out h
    cases s with
    | nil => exact h
    | cons c cs =>
      have step : ∀ (X : Str) (tk : Tok),
          (tokenizeAux f X >>= fun ts => (.ok (tk :: ts) : Except ArithError (List Tok))) = .ok out →
          (tokenizeAux (f + 1) X >>= fun ts => (.ok (tk :: ts) : Except ArithError (List Tok))) = .ok out := by
        intro X tk hx
        obtain ⟨ts, hts, hres⟩ := except_bind_ok _ _ _ hx
        rw [ih _ _ hts]
        exact hres
      unfold tokenizeAux at h ⊢
      by_cases h1 : isPySpace c
      · rw [if_pos h1] at h ⊢
        exact ih _ _ h
      · rw [if_neg h1] at h ⊢
        by_cases h2 : (c.isDigit || c = '.') = true
        · rw [if_pos h2] at h ⊢
          by_cases hdot : ((c :: cs).dropWhile Char.isDigit).head? = some '.'
          · rw [if_pos hdot] at h ⊢
            by_cases h3 : (((c :: cs).takeWhile Char.isDigit).isEmpty &&
                (((c :: cs).dropWhile Char.isDigit).tail.takeWhile Char.isDigit).isEmpty) = true
            · rw [if_pos h3] at h
              simp at h
            · rw [if_neg h3] at h ⊢
              exact step _ _ h
          · rw [if_neg hdot] at h ⊢
            by_cases h3 : intValid ((c :: cs).takeWhile Char.isDigit) = true
            · rw [if_pos h3] at h ⊢
              exact step _ _ h
            · rw [if_neg h3] at h
              simp at h
        · rw [if_neg h2] at h ⊢
          by_cases h4 : c = '+'
          · rw [if_pos h4] at h ⊢
            exact step _ _ h
          · rw [if_neg h4] at h ⊢
            by_cases h5 : c = '-'
            · rw [if_pos h5] at h ⊢
              exact step _ _ h
            · rw [if_neg h5] at h ⊢
              by_cases h6 : c = '*'
              · rw [if_pos h6] at h ⊢
                by_cases h7 : cs.head? = some '*'
                · rw [if_pos h7] at h ⊢
                  exact step _ _ h
                · rw [if_neg h7] at h ⊢
                  exact step _ _ h
              · rw [if_neg h6] at h ⊢
                by_cases h8 : c = '/'
                · rw [if_pos h8] at h ⊢
                  by_cases h9 : cs.head? = some '/'
                  · rw [if_pos h9] at h ⊢
                    exact step _ _ h
                  · rw [if_neg h9] at h ⊢
                    exact step _ _ h
                · rw [if_neg h8] at h ⊢
                  by_cases h10 : c = '%'
                  · rw [if_pos h10] at h ⊢
                    exact step _ _ h
                  · rw [if_neg h10] at h ⊢
                    by_cases h11 : c = '('
                    · rw [if_pos h11] at h ⊢
                      exact step _ _ h
                    · rw [if_neg h11] at h ⊢
                      by_cases h12 : c = ')'
                      · rw [if_pos h12] at h ⊢
                        exact step _ _ h
                      · rw [if_neg h12] at h
                        simp at h

/-- Enough fuel can be weakened to any larger amount. -/
theorem tokenizeAux_of_le (f F : Nat) (s : Str) (out : List Tok)
    (hle : f ≤ F) (h : tokenizeAux f s = .ok out) : tokenizeAux F s = .ok out := by
  induction F with
  | zero =>
    have : f = 0 := by omega
    subst this
    exact h
  | succ F ihF =>
    by_cases hf : f = F + 1
    · subst hf
      exact h
    · exact tokenizeAux_mono F s out (ihF (by omega))

/-- takeWhile and dropWhile split an append at the predicate
    boundary. -/
theorem takeWhile_dropWhile_append (p : Char → Bool) (xs ys : Str)
    (hxs : ∀ x ∈ xs, p x = true)
    (hys : ∀ d ds, ys = d :: ds → p d = false) :
    (xs ++ ys).takeWhile p = xs ∧ (xs ++ ys).dropWhile p = ys := by
  induction xs with
  | nil =>
    simp only [List.nil_append]
    cases ys with
    | nil => exact ⟨rfl, rfl⟩
    | cons d ds =>
      have hd := hys d ds rfl
      rw [List.takeWhile_cons, List.dropWhile_cons]
      rw [if_neg (by simp [hd]), if_neg (by simp [hd])]
      exact ⟨rfl, rfl⟩
  | cons x xs ih =>
    have hx := hxs x (by simp)
    obtain ⟨ih1, ih2⟩ := ih fun y hy => hxs y (by simp [hy])
    rw [List.cons_append, List.takeWhile_cons, List.dropWhile_cons]
    rw [if_pos hx, if_pos hx, ih1, ih2]
    exact ⟨rfl, rfl⟩

/-- A digit character is not whitespace. -/
theorem not_space_of_digit (c : Char) (h : c.isDigit = true) :
    isPySpace c = false := by
  have h1 : c ≠ ' ' := fun hc => by rw [hc] at h; exact absurd h (by decide)
  have h2 : c ≠ '\t' := fun hc => by rw [hc] at h; exact absurd h (by decide)
  have h3 : c ≠ '\n' := fun hc => by rw [hc] at h; exact absurd h (by decide)
  have h4 : c ≠ '\r' := fun hc => by rw [hc] at h; exact absurd h (by decide)
  have h5 : c ≠ '\x0b' := fun hc => by rw [hc] at h; exact absurd h (by decide)
  have h6 : c ≠ '\x0c' := fun hc => by rw [hc] at h; exact absurd h (by decide)
  simp [isPySpace, h1, h2, h3, h4, h5, h6]

/-- All characters of a digit rendering are digits. -/
theorem natDigits_digits (n : Nat) : ∀ c ∈ natDigits n, c.isDigit = true := by
  intro c hc
  unfold natDigits at hc
  by_cases h : n = 0
  · rw [if_pos h] at hc
    simp at hc
    subst hc
    decide
  · rw [if_neg h] at hc
    exact natDigitsAux_digits n n c hc

/-- Tokenizer step on an opening parenthesis. -/
theorem tokenizeAux_lpar (f : Nat) (cs : Str) (ts : List Tok)
    (h : tokenizeAux f cs = .ok ts) :
    tokenizeAux (f + 1) ('(' :: cs) = .ok (.lpar :: ts) := by
  unfold tokenizeAux
  rw [if_neg (by decide), if_neg (by decide), if_neg (by decide), if_neg (by decide),
    if_neg (by decide), if_neg (by decide), if_neg (by decide), if_pos rfl, h]
  rfl

/-- Tokenizer step on a closing parenthesis. -/
theorem tokenizeAux_rpar (f : Nat) (cs : Str) (ts : List Tok)
    (h : tokenizeAux f cs = .ok ts) :
    tokenizeAux (f + 1) (')' :: cs) = .ok (.rpar :: ts) := by
  unfold tokenizeAux
  rw [if_neg (by decide), if_neg (by decide), if_neg (by decide), if_neg (by decide),
    if_neg (by decide), if_neg (by decide), if_neg (by decide), if_neg (by decide),
    if_pos rfl, h]
  rfl

/-- Tokenizer step on a plus sign. -/
theorem tokenizeAux_plus (f : Nat) (cs : Str) (ts : List Tok)
    (h : tokenizeAux f cs = .ok ts) :
    tokenizeAux (f + 1) ('+' :: cs) = .ok (.plus :: ts) := by
  unfold tokenizeAux
  rw [if_neg (by decide), if_neg (by decide), if_pos rfl, h]
  rfl

/-- Tokenizer step on a minus sign. -/
theorem tokenizeAux_minus (f : Nat) (cs : Str) (ts : List Tok)
    (h : tokenizeAux f cs = .ok ts) :
    tokenizeAux (f + 1) ('-' :: cs) = .ok (.minus :: ts) := by
  unfold tokenizeAux
  rw [if_neg (by decide), if_neg (by decide), if_neg (by decide), if_pos rfl, h]
  rfl

/-- Tokenizer step on a percent sign. -/
theorem tokenizeAux_percent (f : Nat) (cs : Str) (ts : List Tok)
    (h : tokenizeAux f cs = .ok ts) :
    tokenizeAux (f + 1) ('%' :: cs) = .ok (.percent :: ts) := by
  unfold tokenizeAux
  rw [if_neg (by decide), if_neg (by decide), if_neg (by decide), if_neg (by decide),
    if_neg (by decide), if_neg (by decide), if_pos rfl, h]
  rfl

/-- Tokenizer step on a single star not followed by a star. -/
theorem tokenizeAux_star (f : Nat) (cs : Str) (ts : List Tok)
    (hns : cs.head? ≠ some '*') (h : tokenizeAux f cs = .ok ts) :
    tokenizeAux (f + 1) ('*' :: cs) = .ok (.star :: ts) := by
  unfold tokenizeAux
  rw [if_neg (by decide), if_neg (by decide), if_neg (by decide), if_neg (by decide),
    if_pos rfl, if_neg hns, h]
  rfl

/-- Tokenizer step on a double star. -/
theorem tokenizeAux_dstar (f : Nat) (cs : Str) (ts : List Tok)
    (h : tokenizeAux f cs = .ok ts) :
    tokenizeAux (f + 1) ('*' :: '*' :: cs) = .ok (.dstar :: ts) := by
  unfold tokenizeAux
  rw [if_neg (by decide), if_neg (by decide), if_neg (by decide), if_neg (by decide),
    if_pos rfl, if_pos (show ('*' :: cs).head? = some '*' from rfl)]
  simp only [List.tail_cons]
  rw [h]
  rfl

/-- Tokenizer step on a single slash not followed by a slash. -/
theorem tokenizeAux_slash (f : Nat) (cs : Str) (ts : List Tok)
    (hns : cs.head? ≠ some '/') (h : tokenizeAux f cs = .ok ts) :
    tokenizeAux (f + 1) ('/' :: cs) = .ok (.slash :: ts) := by
  unfold tokenizeAux
  rw [if_neg (by decide), if_neg (by decide), if_neg (by decide), if_neg (by decide),
    if_neg (by decide), if_pos rfl, if_neg hns, h]
  rfl

/-- Tokenizer step on a rendered integer literal followed by a
    non-numeric character (or the end). -/
theorem tokenizeAux_natDigits (f : Nat) (n : Nat) (rest : Str) (ts : List Tok)
    (hrest : ∀ d ds, rest = d :: ds → d.isDigit = false ∧ d ≠ '.')
    (h : tokenizeAux f rest = .ok ts) :
    tokenizeAux (f + 1) (natDigits n ++ rest) =
      .ok (.num ⟨(n : Int), 1⟩ :: ts) := by
  obtain ⟨htake, hdrop⟩ := takeWhile_dropWhile_append Char.isDigit (natDigits n) rest
    (natDigits_digits n) (fun d ds hds => (hrest d ds hds).1)
  obtain ⟨c, ds0, hcds⟩ : ∃ c ds0, natDigits n = c :: ds0 := by
    cases hnd : natDigits n with
    | nil => exact absurd hnd (natDigits_ne_nil n)
    | cons a l => exact ⟨a, l, rfl⟩
  have hcdig : c.isDigit = true := natDigits_digits n c (by rw [hcds]; simp)
  rw [hcds, List.cons_append] at htake hdrop ⊢
  unfold tokenizeAux
  rw [if_neg (by simp [not_space_of_digit c hcdig]), if_pos (by simp [hcdig])]
  have hdot : ((c :: (ds0 ++ rest)).dropWhile Char.isDigit).head? ≠ some '.' := by
    rw [hdrop]
    cases hrx : rest with
    | nil => simp
    | cons d ds =>
      have hd := hrest d ds hrx
      simp [hd.2]
  rw [if_neg hdot]
  have hvalid : intValid ((c :: (ds0 ++ rest)).takeWhile Char.isDigit) = true := by
    rw [htake, ← hcds]
    exact intValid_natDigits n
  rw [if_pos hvalid, hdrop, h]
  show Except.ok (Tok.num (numVal ((c :: (ds0 ++ rest)).takeWhile Char.isDigit) []) :: ts) = _
  rw [htake, ← hcds]
  have hnum : numVal (natDigits n) [] = ⟨(n : Int), 1⟩ := by
    unfold numVal
    rw [digitsToNat_natDigits]
    simp [digitsToNat]
  rw [hnum]

/-- A rendering starts with a digit or an opening parenthesis, never
    with a star or slash. -/
theorem render_head (e : SExpr) :
    ∃ c cs, render e = c :: cs ∧ c ≠ '*' ∧ c ≠ '/' := by
  cases e with
  | num n =>
    obtain ⟨c, ds, hcds⟩ : ∃ c ds, natDigits n = c :: ds := by
      cases hnd : natDigits n with
      | nil => exact absurd hnd (natDigits_ne_nil n)
      | cons a l => exact ⟨a, l, rfl⟩
    have hdig : c.isDigit = true := natDigits_digits n c (by rw [hcds]; simp)
    refine ⟨c, ds, hcds, ?_, ?_⟩
    · intro hc; rw [hc] at hdig; exact absurd hdig (by decide)
    · intro hc; rw [hc] at hdig; exact absurd hdig (by decide)
  | neg e => exact ⟨'(', _, rfl, by decide, by decide⟩
  | pos e => exact ⟨'(', _, rfl, by decide, by decide⟩
  | add l r => exact ⟨'(', _, rfl, by decide, by decide⟩
  | sub l r => exact ⟨'(', _, rfl, by decide, by decide⟩
  | mul l r => exact ⟨'(', _, rfl, by decide, by decide⟩
  | div l r => exact ⟨'(', _, rfl, by decide, by decide⟩
  | mod l r => exact ⟨'(', _, rfl, by decide, by decide⟩
  | pow l r => exact ⟨'(', _, rfl, by decide, by decide⟩

/-- The tokenizer turns a rendered expression followed by safe residue
    into its token string followed by the residue tokens, for any
    sufficient fuel. -/
theorem tokenizeAux_render (e : SExpr) :
    ∀ (rest : Str) (restToks : List Tok) (f : Nat),
      (∀ d ds, rest = d :: ds → d.isDigit = false ∧ d ≠ '.') →
      tokenizeAux f rest = .ok restToks →
      ∀ F, (render e).length + f ≤ F →
        tokenizeAux F (render e ++ rest) = .ok (tokRender e ++ restToks) := by
  induction e with
  | num n =>
    intro rest restToks f hrest hf F hF
    have h1 : tokenizeAux (f + 1) (natDigits n ++ rest) =
        .ok (.num ⟨(n : Int), 1⟩ :: restToks) :=
      tokenizeAux_natDigits f n rest restToks hrest hf
    have hlen : 1 ≤ (natDigits n).length := by
      cases hnd : natDigits n with
      | nil => exact absurd hnd (natDigits_ne_nil n)
      | cons a l => simp
    have hF' : (natDigits n).length + f ≤ F := hF
    exact tokenizeAux_of_le (f + 1) F _ _ (by omega) h1
  | neg e ihe =>
    intro rest restToks f hrest hf F hF
    have h1 := tokenizeAux_rpar f rest restToks hf
    have h2 := ihe (')' :: rest) (.rpar :: restToks) (f + 1)
      (by
        intro d ds hds
        injection hds with ha hb
        rw [← ha]
        exact ⟨by decide, by decide⟩)
      h1 ((render e).length + (f + 1)) le_rfl
    have h3 := tokenizeAux_minus _ _ _ h2
    have h4 := tokenizeAux_lpar _ _ _ h3
    have hlen : (render (.neg e)).length = (render e).length + 3 := by
      show (('(' :: '-' :: (render e ++ [')'])).length) = _
      simp
    have heq : render (.neg e) ++ rest =
        '(' :: ('-' :: (render e ++ (')' :: rest))) := by
      show ('(' :: '-' :: (render e ++ [')'])) ++ rest = _
      simp
    have heqt : tokRender (.neg e) ++ restToks =
        .lpar :: (.minus :: (tokRender e ++ (.rpar :: restToks))) := by
      show (.lpar :: .minus :: (tokRender e ++ [.rpar])) ++ restToks = _
      simp
    rw [heq, heqt]
    exact tokenizeAux_of_le _ _ _ _ (by omega) h4
  | pos e ihe =>
    intro rest restToks f hrest hf F hF
    have h1 := tokenizeAux_rpar f rest restToks hf
    have h2 := ihe (')' :: rest) (.rpar :: restToks) (f + 1)
      (by
        intro d ds hds
        injection hds with ha hb
        rw [← ha]
        exact ⟨by decide, by decide⟩)
      h1 ((render e).length + (f + 1)) le_rfl
    have h3 := tokenizeAux_plus _ _ _ h2
    have h4 := tokenizeAux_lpar _ _ _ h3
    have hlen : (render (.pos e)).length = (render e).length + 3 := by
      show (('(' :: '+' :: (render e ++ [')'])).length) = _
      simp
    have heq : render (.pos e) ++ rest =
        '(' :: ('+' :: (render e ++ (')' :: rest))) := by
      show ('(' :: '+' :: (render e ++ [')'])) ++ rest = _
      simp
    have heqt : tokRender (.pos e) ++ restToks =
        .lpar :: (.plus :: (tokRender e ++ (.rpar :: restToks))) := by
      show (.lpar :: .plus :: (tokRender e ++ [.rpar])) ++ restToks = _
      simp
    rw [heq, heqt]
    exact tokenizeAux_of_le _ _ _ _ (by omega) h4
  | add l r ihl ihr =>
    intro rest restToks f hrest hf F hF
    have h1 := tokenizeAux_rpar f rest restToks hf
    have h2 := ihr (')' :: rest) (.rpar :: restToks) (f + 1)
      (by
        intro d ds hds
        injection hds with ha hb
        rw [← ha]
        exact ⟨by decide, by decide⟩)
      h1 ((render r).length + (f + 1)) le_rfl
    have h3 := tokenizeAux_plus _ _ _ h2
    have h4 := ihl ('+' :: (render r ++ (')' :: rest)))
      (.plus :: (tokRender r ++ (.rpar :: restToks)))
      ((render r).length + (f + 1) + 1)
      (by
        intro d ds hds
        injection hds with ha hb
        rw [← ha]
        exact ⟨by decide, by decide⟩)
      h3 ((render l).length + ((render r).length + (f + 1) + 1)) le_rfl
    have h5 := tokenizeAux_lpar _ _ _ h4
    have hlen : (render (.add l r)).length =
        (render l).length + (render r).length + 3 := by
      show (('(' :: (render l ++ '+' :: (render r ++ [')']))).length) = _
      simp
      omega
    have heq : render (.add l r) ++ rest =
        '(' :: (render l ++ ('+' :: (render r ++ (')' :: rest)))) := by
      show ('(' :: (render l ++ '+' :: (render r ++ [')']))) ++ rest = _
      simp
    have heqt : tokRender (.add l r) ++ restToks =
        .lpar :: (tokRender l ++ (.plus :: (tokRender r ++ (.rpar :: restToks)))) := by
      show (.lpar :: (tokRender l ++ .plus :: (tokRender r ++ [.rpar]))) ++ restToks = _
      simp
    rw [heq, heqt]
    exact tokenizeAux_of_le _ _ _ _ (by omega) h5
  | sub l r ihl ihr =>
    intro rest restToks f hrest hf F hF
    have h1 := tokenizeAux_rpar f rest restToks hf
    have h2 := ihr (')' :: rest) (.rpar :: restToks) (f + 1)
      (by
        intro d ds hds
        injection hds with ha hb
        rw [← ha]
        exact ⟨by decide, by decide⟩)
      h1 ((render r).length + (f + 1)) le_rfl
    have h3 := tokenizeAux_minus _ _ _ h2
    have h4 := ihl ('-' :: (render r ++ (')' :: rest)))
      (.minus :: (tokRender r ++ (.rpar :: restToks)))
      ((render r).length + (f + 1) + 1)
      (by
        intro d ds hds
        injection hds with ha hb
        rw [← ha]
        exact ⟨by decide, by decide⟩)
      h3 ((render l).length + ((render r).length + (f + 1) + 1)) le_rfl
    have h5 := tokenizeAux_lpar _ _ _ h4
    have hlen : (render (.sub l r)).length =
        (render l).length + (render r).length + 3 := by
      show (('(' :: (render l ++ '-' :: (render r ++ [')']))).length) = _
      simp
      omega
    have heq : render (.sub l r) ++ rest =
        '(' :: (render l ++ ('-' :: (render r ++ (')' :: rest)))) := by
      show ('(' :: (render l ++ '-' :: (render r ++ [')']))) ++ rest = _
      simp
    have heqt : tokRender (.sub l r) ++ restToks =
        .lpar :: (tokRender l ++ (.minus :: (tokRender r ++ (.rpar :: restToks)))) := by
      show (.lpar :: (tokRender l ++ .minus :: (tokRender r ++ [.rpar]))) ++ restToks = _
      simp
    rw [heq, heqt]
    exact tokenizeAux_of_le _ _ _ _ (by omega) h5
  | mul l r ihl ihr =>
    intro rest restToks f hrest hf F hF
    have h1 := tokenizeAux_rpar f rest restToks hf
    have h2 := ihr (')' :: rest) (.rpar :: restToks) (f + 1)
      (by
        intro d ds hds
        injection hds with ha hb
        rw [← ha]
        exact ⟨by decide, by decide⟩)
      h1 ((render r).length + (f + 1)) le_rfl
    have hns : (render r ++ (')' :: rest)).head? ≠ some '*' := by
      obtain ⟨c, cs, hcs, hc1, hc2⟩ := render_head r
      rw [hcs, List.cons_append, List.head?_cons]
      intro hcon
      injection hcon with hcon
      exact hc1 hcon
    have h3 := tokenizeAux_star _ _ _ hns h2
    have h4 := ihl ('*' :: (render r ++ (')' :: rest)))
      (.star :: (tokRender r ++ (.rpar :: restToks)))
      ((render r).length + (f + 1) + 1)
      (by
        intro d ds hds
        injection hds with ha hb
        rw [← ha]
        exact ⟨by decide, by decide⟩)
      h3 ((render l).length + ((render r).length + (f + 1) + 1)) le_rfl
    have h5 := tokenizeAux_lpar _ _ _ h4
    have hlen : (render (.mul l r)).length =
        (render l).length + (render r).length + 3 := by
      show (('(' :: (render l ++ '*' :: (render r ++ [')']))).length) = _
      simp
      omega
    have heq : render (.mul l r) ++ rest =
        '(' :: (render l ++ ('*' :: (render r ++ (')' :: rest)))) := by
      show ('(' :: (render l ++ '*' :: (render r ++ [')']))) ++ rest = _
      simp
    have heqt : tokRender (.mul l r) ++ restToks =
        .lpar :: (tokRender l ++ (.star :: (tokRender r ++ (.rpar :: restToks)))) := by
      show (.lpar :: (tokRender l ++ .star :: (tokRender r ++ [.rpar]))) ++ restToks = _
      simp
    rw [heq, heqt]
    exact tokenizeAux_of_le _ _ _ _ (by omega) h5
  | div l r ihl ihr =>
    intro rest restToks f hrest hf F hF
    have h1 := tokenizeAux_rpar f rest restToks hf
    have h2 := ihr (')' :: rest) (.rpar :: restToks) (f + 1)
      (by
        intro d ds hds
        injection hds with ha hb
        rw [← ha]
        exact ⟨by decide, by decide⟩)
      h1 ((render r).length + (f + 1)) le_rfl
    have hns : (render r ++ (')' :: rest)).head? ≠ some '/' := by
      obtain ⟨c, cs, hcs, hc1, hc2⟩ := render_head r
      rw [hcs, List.cons_append, List.head?_cons]
      intro hcon
      injection hcon with hcon
      exact hc2 hcon
    have h3 := tokenizeAux_slash _ _ _ hns h2
    have h4 := ihl ('/' :: (render r ++ (')' :: rest)))
      (.slash :: (tokRender r ++ (.rpar :: restToks)))
      ((render r).length + (f + 1) + 1)
      (by
        intro d ds hds
        injection hds with ha hb
        rw [← ha]
        exact ⟨by decide, by decide⟩)
      h3 ((render l).length + ((render r).length + (f + 1) + 1)) le_rfl
    have h5 := tokenizeAux_lpar _ _ _ h4
    have hlen : (render (.div l r)).length =
        (render l).length + (render r).length + 3 := by
      show (('(' :: (render l ++ '/' :: (render r ++ [')']))).length) = _
      simp
      omega
    have heq : render (.div l r) ++ rest =
        '(' :: (render l ++ ('/' :: (render r ++ (')' :: rest)))) := by
      show ('(' :: (render l ++ '/' :: (render r ++ [')']))) ++ rest = _
      simp
    have heqt : tokRender (.div l r) ++ restToks =
        .lpar :: (tokRender l ++ (.slash :: (tokRender r ++ (.rpar :: restToks)))) := by
      show (.lpar :: (tokRender l ++ .slash :: (tokRender r ++ [.rpar]))) ++ restToks = _
      simp
    rw [heq, heqt]
    exact tokenizeAux_of_le _ _ _ _ (by omega) h5
  | mod l r ihl ihr =>
    intro rest restToks f hrest hf F hF
    have h1 := tokenizeAux_rpar f rest restToks hf
    have h2 := ihr (')' :: rest) (.rpar :: restToks) (f + 1)
      (by
        intro d ds hds
        injection hds with ha hb
        rw [← ha]
        exact ⟨by decide, by decide⟩)
      h1 ((render r).length + (f + 1)) le_rfl
    have h3 := tokenizeAux_percent _ _ _ h2
    have h4 := ihl ('%' :: (render r ++ (')' :: rest)))
      (.percent :: (tokRender r ++ (.rpar :: restToks)))
      ((render r).length + (f + 1) + 1)
      (by
        intro d ds hds
        injection hds with ha hb
        rw [← ha]
        exact ⟨by decide, by decide⟩)
      h3 ((render l).length + ((render r).length + (f + 1) + 1)) le_rfl
    have h5 := tokenizeAux_lpar _ _ _ h4
    have hlen : (render (.mod l r)).length =
        (render l).length + (render r).length + 3 := by
      show (('(' :: (render l ++ '%' :: (render r ++ [')']))).length) = _
      simp
      omega
    have heq : render (.mod l r) ++ rest =
        '(' :: (render l ++ ('%' :: (render r ++ (')' :: rest)))) := by
      show ('(' :: (render l ++ '%' :: (render r ++ [')']))) ++ rest = _
      simp
    have heqt : tokRender (.mod l r) ++ restToks =
        .lpar :: (tokRender l ++ (.percent :: (tokRender r ++ (.rpar :: restToks)))) := by
      show (.lpar :: (tokRender l ++ .percent :: (tokRender r ++ [.rpar]))) ++ restToks = _
      simp
    rw [heq, heqt]
    exact tokenizeAux_of_le _ _ _ _ (by omega) h5
  | pow l r ihl ihr =>
    intro rest restToks f hrest hf F hF
    have h1 := tokenizeAux_rpar f rest restToks hf
    have h2 := ihr (')' :: rest) (.rpar :: restToks) (f + 1)
      (by
        intro d ds hds
        injection hds with ha hb
        rw [← ha]
        exact ⟨by decide, by decide⟩)
      h1 ((render r).length + (f + 1)) le_rfl
    have h3 := tokenizeAux_dstar _ _ _ h2
    have h4 := ihl ('*' :: '*' :: (render r ++ (')' :: rest)))
      (.dstar :: (tokRender r ++ (.rpar :: restToks)))
      ((render r).length + (f + 1) + 1)
      (by
        intro d ds hds
        injection hds with ha hb
        rw [← ha]
        exact ⟨by decide, by decide⟩)
      h3 ((render l).length + ((render r).length + (f + 1) + 1)) le_rfl
    have h5 := tokenizeAux_lpar _ _ _ h4
    have hlen : (render (.pow l r)).length =
        (render l).length + (render r).length + 4 := by
      show (('(' :: (render l ++ '*' :: '*' :: (render r ++ [')']))).length) = _
      simp
      omega
    have heq : render (.pow l r) ++ rest =
        '(' :: (render l ++ ('*' :: '*' :: (render r ++ (')' :: rest)))) := by
      show ('(' :: (render l ++ '*' :: '*' :: (render r ++ [')']))) ++ rest = _
      simp
    have heqt : tokRender (.pow l r) ++ restToks =
        .lpar :: (tokRender l ++ (.dstar :: (tokRender r ++ (.rpar :: restToks)))) := by
      show (.lpar :: (tokRender l ++ .dstar :: (tokRender r ++ [.rpar]))) ++ restToks = _
      simp
    rw [heq, heqt]
    exact tokenizeAux_of_le _ _ _ _ (by omega) h5

/-- The tokenizer maps a rendered expression to its token string. -/
theorem tokenize_render (e : SExpr) : tokenize (render e) = .ok (tokRender e) := by
  have h := tokenizeAux_render e [] [] 0 (by intro d ds hds; cases hds) rfl
    ((render e).length) (by omega)
  rw [List.append_nil, List.append_nil] at h
  exact h

/-- The token string of a rendering starts with a number or an opening
    parenthesis. -/
theorem tokRender_head (e : SExpr) :
    ∃ t ts, tokRender e = t :: ts ∧ (t = Tok.lpar ∨ ∃ q, t = Tok.num q) := by
  cases e with
  | num n => exact ⟨_, _, rfl, Or.inr ⟨_, rfl⟩⟩
  | neg e => exact ⟨.lpar, _, rfl, Or.inl rfl⟩
  | pos e => exact ⟨.lpar, _, rfl, Or.inl rfl⟩
  | add l r => exact ⟨.lpar, _, rfl, Or.inl rfl⟩
  | sub l r => exact ⟨.lpar, _, rfl, Or.inl rfl⟩
  | mul l r => exact ⟨.lpar, _, rfl, Or.inl rfl⟩
  | div l r => exact ⟨.lpar, _, rfl, Or.inl rfl⟩
  | mod l r => exact ⟨.lpar, _, rfl, Or.inl rfl⟩
  | pow l r => exact ⟨.lpar, _, rfl, Or.inl rfl⟩

/-- The sum continuation stops at anything but a plus or minus. -/
theorem pExprTail_stop (f : Nat) (acc : PyExpr) (ts : List Tok)
    (h : ∀ t ts', ts = t :: ts' → t ≠ Tok.plus ∧ t ≠ Tok.minus) (hf : 1 ≤ f) :
    pExprTail f acc ts = .ok (acc, ts) := by
  obtain ⟨f', rfl⟩ : ∃ f', f = f' + 1 := ⟨f - 1, by omega⟩
  cases ts with
  | nil => rfl
  | cons t ts' =>
    obtain ⟨h1, h2⟩ := h t ts' rfl
    cases t
    case plus => exact absurd rfl h1
    case minus => exact absurd rfl h2
    all_goals rfl

/-- The product continuation stops at anything but a product
    operator. -/
theorem pTermTail_stop (f : Nat) (acc : PyExpr) (ts : List Tok)
    (h : ∀ t ts', ts = t :: ts' →
      t ≠ Tok.star ∧ t ≠ Tok.slash ∧ t ≠ Tok.dslash ∧ t ≠ Tok.percent)
    (hf : 1 ≤ f) :
    pTermTail f acc ts = .ok (acc, ts) := by
  obtain ⟨f', rfl⟩ : ∃ f', f = f' + 1 := ⟨f - 1, by omega⟩
  cases ts with
  | nil => rfl
  | cons t ts' =>
    obtain ⟨h1, h2, h3, h4⟩ := h t ts' rfl
    cases t
    case star => exact absurd rfl h1
    case slash => exact absurd rfl h2
    case dslash => exact absurd rfl h3
    case percent => exact absurd rfl h4
    all_goals rfl

/-- A factor whose tokens are a rendered operand, not followed by a
    double star, parses to the operand. -/
theorem pFactor_operand (l : SExpr)
    (IH : ∀ (rest : List Tok) (f : Nat), 7 * sz l + 1 ≤ f →
      pAtom f (tokRender l ++ rest) = .ok (toPy l, rest))
    (rest : List Tok) (f : Nat) (hf : 7 * sz l + 3 ≤ f)
    (hnd : ∀ ts', rest ≠ Tok.dstar :: ts') :
    pFactor f (tokRender l ++ rest) = .ok (toPy l, rest) := by
  obtain ⟨f1, rfl⟩ : ∃ f1, f = f1 + 1 := ⟨f - 1, by omega⟩
  obtain ⟨t, ts, hts, hhead⟩ := tokRender_head l
  have hfac : pFactor (f1 + 1) (tokRender l ++ rest) =
      pPower f1 (tokRender l ++ rest) := by
    rw [hts, List.cons_append]
    rcases hhead with h | ⟨q, h⟩ <;> subst h <;> rfl
  rw [hfac]
  obtain ⟨f2, rfl⟩ : ∃ f2, f1 = f2 + 1 := ⟨f1 - 1, by omega⟩
  unfold pPower
  rw [IH rest f2 (by omega)]
  cases rest with
  | nil => rfl
  | cons t2 ts2 =>
    cases t2
    case dstar => exact absurd rfl (hnd ts2)
    all_goals rfl

/-- A term whose tokens are a rendered operand, followed by nothing
    that extends a product or power, parses to the operand. -/
theorem pTerm_operand (l : SExpr)
    (IH : ∀ (rest : List Tok) (f : Nat), 7 * sz l + 1 ≤ f →
      pAtom f (tokRender l ++ rest) = .ok (toPy l, rest))
    (rest : List Tok) (f : Nat) (hf : 7 * sz l + 4 ≤ f)
    (hstop : ∀ t ts', rest = t :: ts' →
      t ≠ Tok.star ∧ t ≠ Tok.slash ∧ t ≠ Tok.dslash ∧ t ≠ Tok.percent ∧
        t ≠ Tok.dstar) :
    pTerm f (tokRender l ++ rest) = .ok (toPy l, rest) := by
  obtain ⟨f1, rfl⟩ : ∃ f1, f = f1 + 1 := ⟨f - 1, by omega⟩
  unfold pTerm
  rw [pFactor_operand l IH rest f1 (by omega)
    (fun ts' hts' => ((hstop _ _ hts').2.2.2.2) rfl)]
  exact pTermTail_stop f1 _ _
    (fun t ts' hts' => ⟨(hstop t ts' hts').1, (hstop t ts' hts').2.1,
      (hstop t ts' hts').2.2.1, (hstop t ts' hts').2.2.2.1⟩) (by omega)

/-- A sum whose tokens are a rendered operand, followed by nothing that
    extends any chain, parses to the operand. -/
theorem pExpr_operand (l : SExpr)
    (IH : ∀ (rest : List Tok) (f : Nat), 7 * sz l + 1 ≤ f →
      pAtom f (tokRender l ++ rest) = .ok (toPy l, rest))
    (rest : List Tok) (f : Nat) (hf : 7 * sz l + 5 ≤ f)
    (hstop : ∀ t ts', rest = t :: ts' →
      t ≠ Tok.plus ∧ t ≠ Tok.minus ∧ t ≠ Tok.star ∧ t ≠ Tok.slash ∧
        t ≠ Tok.dslash ∧ t ≠ Tok.percent ∧ t ≠ Tok.dstar) :
    pExpr f (tokRender l ++ rest) = .ok (toPy l, rest) := by
  obtain ⟨f1, rfl⟩ : ∃ f1, f = f1 + 1 := ⟨f - 1, by omega⟩
  unfold pExpr
  rw [pTerm_operand l IH rest f1 (by omega)
    (fun t ts' hts' => ⟨(hstop t ts' hts').2.2.1, (hstop t ts' hts').2.2.2.1,
      (hstop t ts' hts').2.2.2.2.1, (hstop t ts' hts').2.2.2.2.2.1,
      (hstop t ts' hts').2.2.2.2.2.2⟩)]
  exact pExprTail_stop f1 _ _
    (fun t ts' hts' => ⟨(hstop t ts' hts').1, (hstop t ts' hts').2.1⟩) (by omega)

/-- Step of the sum continuation over a plus. -/
theorem pExprTail_plus (f : Nat) (acc : PyExpr) (ts : List Tok) (E : PyExpr)
    (ts1 : List Tok) (h : pTerm f ts = .ok (E, ts1)) :
    pExprTail (f + 1) acc (.plus :: ts) = pExprTail f (.binOp .add acc E) ts1 := by
  show (do
    let (r, ts1) ← pTerm f ts
    pExprTail f (.binOp .add acc r) ts1) = _
  rw [h]
  rfl

/-- Step of the sum continuation over a minus. -/
theorem pExprTail_minus (f : Nat) (acc : PyExpr) (ts : List Tok) (E : PyExpr)
    (ts1 : List Tok) (h : pTerm f ts = .ok (E, ts1)) :
    pExprTail (f + 1) acc (.minus :: ts) = pExprTail f (.binOp .sub acc E) ts1 := by
  show (do
    let (r, ts1) ← pTerm f ts
    pExprTail f (.binOp .sub acc r) ts1) = _
  rw [h]
  rfl

/-- Step of the product continuation over a star. -/
theorem pTermTail_star (f : Nat) (acc : PyExpr) (ts : List Tok) (E : PyExpr)
    (ts1 : List Tok) (h : pFactor f ts = .ok (E, ts1)) :
    pTermTail (f + 1) acc (.star :: ts) = pTermTail f (.binOp .mult acc E) ts1 := by
  show (do
    let (r, ts1) ← pFactor f ts
    pTermTail f (.binOp .mult acc r) ts1) = _
  rw [h]
  rfl

/-- Step of the product continuation over a slash. -/
theorem pTermTail_slash (f : Nat) (acc : PyExpr) (ts : List Tok) (E : PyExpr)
    (ts1 : List Tok) (h : pFactor f ts = .ok (E, ts1)) :
    pTermTail (f + 1) acc (.slash :: ts) = pTermTail f (.binOp .div acc E) ts1 := by
  show (do
    let (r, ts1) ← pFactor f ts
    pTermTail f (.binOp .div acc r) ts1) = _
  rw [h]
  rfl

/-- Step of the product continuation over a percent. -/
theorem pTermTail_percent (f : Nat) (acc : PyExpr) (ts : List Tok) (E : PyExpr)
    (ts1 : List Tok) (h : pFactor f ts = .ok (E, ts1)) :
    pTermTail (f + 1) acc (.percent :: ts) = pTermTail f (.binOp .mod acc E) ts1 := by
  show (do
    let (r, ts1) ← pFactor f ts
    pTermTail f (.binOp .mod acc r) ts1) = _
  rw [h]
  rfl

/-- A power with an explicit double star parses both operands. -/
theorem pPower_dstar (f : Nat) (ts ts2 ts3 : List Tok) (A B : PyExpr)
    (h1 : pAtom f ts = .ok (A, .dstar :: ts2))
    (h2 : pFactor f ts2 = .ok (B, ts3)) :
    pPower (f + 1) ts = .ok (.binOp .pow A B, ts3) := by
  unfold pPower
  rw [h1]
  show (do
    let (b, ts3) ← pFactor f ts2
    (.ok (.binOp .pow A b, ts3) : Except ArithError (PyExpr × List Tok))) = _
  rw [h2]
  rfl

/-- A factor starting with a minus wraps its operand in a negation. -/
theorem pFactor_minus (f : Nat) (ts : List Tok) (E : PyExpr) (ts1 : List Tok)
    (h : pFactor f ts = .ok (E, ts1)) :
    pFactor (f + 1) (.minus :: ts) = .ok (.unaryOp .usub E, ts1) := by
  show (do
    let (e, ts1) ← pFactor f ts
    (.ok (.unaryOp .usub e, ts1) : Except ArithError (PyExpr × List Tok))) = _
  rw [h]
  rfl

/-- A factor starting with a plus wraps its operand in a unary plus. -/
theorem pFactor_plus (f : Nat) (ts : List Tok) (E : PyExpr) (ts1 : List Tok)
    (h : pFactor f ts = .ok (E, ts1)) :
    pFactor (f + 1) (.plus :: ts) = .ok (.unaryOp .uadd E, ts1) := by
  show (do
    let (e, ts1) ← pFactor f ts
    (.ok (.unaryOp .uadd e, ts1) : Except ArithError (PyExpr × List Tok))) = _
  rw [h]
  rfl

/-- An atom built from a parenthesized sum. -/
theorem pAtom_paren (f : Nat) (t : Tok) (ts rest2 : List Tok) (E : PyExpr)
    (ht : t ≠ Tok.rpar)
    (h : pExpr f (t :: ts) = .ok (E, .rpar :: rest2)) :
    pAtom (f + 1) (.lpar :: t :: ts) = .ok (E, rest2) := by
  have hstep : pAtom (f + 1) (.lpar :: t :: ts) = (do
      let (e, ts1) ← pExpr f (t :: ts)
      match ts1 with
      | .rpar :: ts2 => .ok (e, ts2)
      | _ => .error .invalidSyntax) := by
    cases t
    case rpar => exact absurd rfl ht
    all_goals rfl
  rw [hstep, h]
  rfl

/-- The parser maps the token string of a rendered expression, followed
    by any residue, to the corresponding Python AST with the residue
    untouched, for any sufficient fuel. -/
theorem pAtom_render (e : SExpr) :
    ∀ (rest : List Tok) (f : Nat), 7 * sz e + 1 ≤ f →
      pAtom f (tokRender e ++ rest) = .ok (toPy e, rest) := by
  induction e with
  | num n =>
    intro rest f hf
    obtain ⟨f1, rfl⟩ : ∃ f1, f = f1 + 1 := ⟨f - 1, by omega⟩
    rfl
  | neg e ihe =>
    intro rest f hf
    have hsz : sz (.neg e) = sz e + 1 := rfl
    obtain ⟨f4, rfl⟩ : ∃ f4, f = f4 + 4 := ⟨f - 4, by omega⟩
    have heq : tokRender (.neg e) ++ rest =
        .lpar :: .minus :: (tokRender e ++ (.rpar :: rest)) := by
      show (.lpar :: .minus :: (tokRender e ++ [.rpar])) ++ rest = _
      simp
    rw [heq]
    have hfac : pFactor (f4 + 1) (.minus :: (tokRender e ++ (.rpar :: rest))) =
        .ok (.unaryOp .usub (toPy e), .rpar :: rest) :=
      pFactor_minus f4 _ _ _
        (pFactor_operand e ihe (.rpar :: rest) f4 (by omega)
          (by intro ts' hts'; injection hts' with ha hb; exact absurd ha.symm (by decide)))
    have hterm : pTerm (f4 + 2) (.minus :: (tokRender e ++ (.rpar :: rest))) =
        .ok (.unaryOp .usub (toPy e), .rpar :: rest) := by
      unfold pTerm
      rw [hfac]
      exact pTermTail_stop (f4 + 1) _ _
        (by
          intro t ts' hts'
          injection hts' with ha hb
          rw [← ha]
          exact ⟨by decide, by decide, by decide, by decide⟩)
        (by omega)
    have hexpr : pExpr (f4 + 3) (.minus :: (tokRender e ++ (.rpar :: rest))) =
        .ok (.unaryOp .usub (toPy e), .rpar :: rest) := by
      unfold pExpr
      rw [hterm]
      exact pExprTail_stop (f4 + 2) _ _
        (by
          intro t ts' hts'
          injection hts' with ha hb
          rw [← ha]
          exact ⟨by decide, by decide⟩)
        (by omega)
    exact pAtom_paren (f4 + 3) .minus _ rest _ (by decide) hexpr
  | pos e ihe =>
    intro rest f hf
    have hsz : sz (.pos e) = sz e + 1 := rfl
    obtain ⟨f4, rfl⟩ : ∃ f4, f = f4 + 4 := ⟨f - 4, by omega⟩
    have heq : tokRender (.pos e) ++ rest =
        .lpar :: .plus :: (tokRender e ++ (.rpar :: rest)) := by
      show (.lpar :: .plus :: (tokRender e ++ [.rpar])) ++ rest = _
      simp
    rw [heq]
    have hfac : pFactor (f4 + 1) (.plus :: (tokRender e ++ (.rpar :: rest))) =
        .ok (.unaryOp .uadd (toPy e), .rpar :: rest) :=
      pFactor_plus f4 _ _ _
        (pFactor_operand e ihe (.rpar :: rest) f4 (by omega)
          (by intro ts' hts'; injection hts' with ha hb; exact absurd ha.symm (by decide)))
    have hterm : pTerm (f4 + 2) (.plus :: (tokRender e ++ (.rpar :: rest))) =
        .ok (.unaryOp .uadd (toPy e), .rpar :: rest) := by
      unfold pTerm
      rw [hfac]
      exact pTermTail_stop (f4 + 1) _ _
        (by
          intro t ts' hts'
          injection hts' with ha hb
          rw [← ha]
          exact ⟨by decide, by decide, by decide, by decide⟩)
        (by omega)
    have hexpr : pExpr (f4 + 3) (.plus :: (tokRender e ++ (.rpar :: rest))) =
        .ok (.unaryOp .uadd (toPy e), .rpar :: rest) := by
      unfold pExpr
      rw [hterm]
      exact pExprTail_stop (f4 + 2) _ _
        (by
          intro t ts' hts'
          injection hts' with ha hb
          rw [← ha]
          exact ⟨by decide, by decide⟩)
        (by omega)
    exact pAtom_paren (f4 + 3) .plus _ rest _ (by decide) hexpr
  | add l r ihl ihr =>
    intro rest f hf
    have hsz : sz (.add l r) = sz l + sz r + 1 := rfl
    obtain ⟨f3, rfl⟩ : ∃ f3, f = f3 + 3 := ⟨f - 3, by omega⟩
    have heq : tokRender (.add l r) ++ rest =
        .lpar :: (tokRender l ++ (.plus :: (tokRender r ++ (.rpar :: rest)))) := by
      show (.lpar :: (tokRender l ++ .plus :: (tokRender r ++ [.rpar]))) ++ rest = _
      simp
    rw [heq]
    have hterm1 : pTerm (f3 + 1)
        (tokRender l ++ (.plus :: (tokRender r ++ (.rpar :: rest)))) =
        .ok (toPy l, .plus :: (tokRender r ++ (.rpar :: rest))) :=
      pTerm_operand l ihl _ (f3 + 1) (by omega)
        (by
          intro t ts' hts'
          injection hts' with ha hb
          rw [← ha]
          exact ⟨by decide, by decide, by decide, by decide, by decide⟩)
    have hterm2 : pTerm f3 (tokRender r ++ (.rpar :: rest)) =
        .ok (toPy r, .rpar :: rest) :=
      pTerm_operand r ihr _ f3 (by omega)
        (by
          intro t ts' hts'
          injection hts' with ha hb
          rw [← ha]
          exact ⟨by decide, by decide, by decide, by decide, by decide⟩)
    have hexpr : pExpr (f3 + 2)
        (tokRender l ++ (.plus :: (tokRender r ++ (.rpar :: rest)))) =
        .ok (.binOp .add (toPy l) (toPy r), .rpar :: rest) := by
      unfold pExpr
      rw [hterm1]
      show pExprTail (f3 + 1) (toPy l) (.plus :: (tokRender r ++ (.rpar :: rest))) = _
      rw [pExprTail_plus f3 (toPy l) _ (toPy r) (.rpar :: rest) hterm2]
      exact pExprTail_stop f3 _ _
        (by
          intro t ts' hts'
          injection hts' with ha hb
          rw [← ha]
          exact ⟨by decide, by decide⟩)
        (by omega)
    obtain ⟨t0, ts0, hts0, hhead0⟩ := tokRender_head l
    have ht0 : t0 ≠ Tok.rpar := by
      rcases hhead0 with h | ⟨q, h⟩ <;> subst h <;> simp
    rw [hts0, List.cons_append] at hexpr ⊢
    exact pAtom_paren (f3 + 2) t0 _ rest _ ht0 hexpr
  | sub l r ihl ihr =>
    intro rest f hf
    have hsz : sz (.sub l r) = sz l + sz r + 1 := rfl
    obtain ⟨f3, rfl⟩ : ∃ f3, f = f3 + 3 := ⟨f - 3, by omega⟩
    have heq : tokRender (.sub l r) ++ rest =
        .lpar :: (tokRender l ++ (.minus :: (tokRender r ++ (.rpar :: rest)))) := by
      show (.lpar :: (tokRender l ++ .minus :: (tokRender r ++ [.rpar]))) ++ rest = _
      simp
    rw [heq]
    have hterm1 : pTerm (f3 + 1)
        (tokRender l ++ (.minus :: (tokRender r ++ (.rpar :: rest)))) =
        .ok (toPy l, .minus :: (tokRender r ++ (.rpar :: rest))) :=
      pTerm_operand l ihl _ (f3 + 1) (by omega)
        (by
          intro t ts' hts'
          injection hts' with ha hb
          rw [← ha]
          exact ⟨by decide, by decide, by decide, by decide, by decide⟩)
    have hterm2 : pTerm f3 (tokRender r ++ (.rpar :: rest)) =
        .ok (toPy r, .rpar :: rest) :=
      pTerm_operand r ihr _ f3 (by omega)
        (by
          intro t ts' hts'
          injection hts' with ha hb
          rw [← ha]
          exact ⟨by decide, by decide, by decide, by decide, by decide⟩)
    have hexpr : pExpr (f3 + 2)
        (tokRender l ++ (.minus :: (tokRender r ++ (.rpar :: rest)))) =
        .ok (.binOp .sub (toPy l) (toPy r), .rpar :: rest) := by
      unfold pExpr
      rw [hterm1]
      show pExprTail (f3 + 1) (toPy l) (.minus :: (tokRender r ++ (.rpar :: rest))) = _
      rw [pExprTail_minus f3 (toPy l) _ (toPy r) (.rpar :: rest) hterm2]
      exact pExprTail_stop f3 _ _
        (by
          intro t ts' hts'
          injection hts' with ha hb
          rw [← ha]
          exact ⟨by decide, by decide⟩)
        (by omega)
    obtain ⟨t0, ts0, hts0, hhead0⟩ := tokRender_head l
    have ht0 : t0 ≠ Tok.rpar := by
      rcases hhead0 with h | ⟨q, h⟩ <;> subst h <;> simp
    rw [hts0, List.cons_append] at hexpr ⊢
    exact pAtom_paren (f3 + 2) t0 _ rest _ ht0 hexpr
  | mul l r ihl ihr =>
    intro rest f hf
    have hsz : sz (.mul l r) = sz l + sz r + 1 := rfl
    obtain ⟨f4, rfl⟩ : ∃ f4, f = f4 + 4 := ⟨f - 4, by omega⟩
    have heq : tokRender (.mul l r) ++ rest =
        .lpar :: (tokRender l ++ (.star :: (tokRender r ++ (.rpar :: rest)))) := by
      show (.lpar :: (tokRender l ++ .star :: (tokRender r ++ [.rpar]))) ++ rest = _
      simp
    rw [heq]
    have hfac1 : pFactor (f4 + 1)
        (tokRender l ++ (.star :: (tokRender r ++ (.rpar :: rest)))) =
        .ok (toPy l, .star :: (tokRender r ++ (.rpar :: rest))) :=
      pFactor_operand l ihl _ (f4 + 1) (by omega)
        (by intro ts' hts'; injection hts' with ha hb; exact absurd ha.symm (by decide))
    have hfac2 : pFactor f4 (tokRender r ++ (.rpar :: rest)) =
        .ok (toPy r, .rpar :: rest) :=
      pFactor_operand r ihr _ f4 (by omega)
        (by intro ts' hts'; injection hts' with ha hb; exact absurd ha.symm (by decide))
    have hterm : pTerm (f4 + 2)
        (tokRender l ++ (.star :: (tokRender r ++ (.rpar :: rest)))) =
        .ok (.binOp .mult (toPy l) (toPy r), .rpar :: rest) := by
      unfold pTerm
      rw [hfac1]
      show pTermTail (f4 + 1) (toPy l) (.star :: (tokRender r ++ (.rpar :: rest))) = _
      rw [pTermTail_star f4 (toPy l) _ (toPy r) (.rpar :: rest) hfac2]
      exact pTermTail_stop f4 _ _
        (by
          intro t ts' hts'
          injection hts' with ha hb
          rw [← ha]
          exact ⟨by decide, by decide, by decide, by decide⟩)
        (by omega)
    have hexpr : pExpr (f4 + 3)
        (tokRender l ++ (.star :: (tokRender r ++ (.rpar :: rest)))) =
        .ok (.binOp .mult (toPy l) (toPy r), .rpar :: rest) := by
      unfold pExpr
      rw [hterm]
      exact pExprTail_stop (f4 + 2) _ _
        (by
          intro t ts' hts'
          injection hts' with ha hb
          rw [← ha]
          exact ⟨by decide, by decide⟩)
        (by omega)
    obtain ⟨t0, ts0, hts0, hhead0⟩ := tokRender_head l
    have ht0 : t0 ≠ Tok.rpar := by
      rcases hhead0 with h | ⟨q, h⟩ <;> subst h <;> simp
    rw [hts0, List.cons_append] at hexpr ⊢
    exact pAtom_paren (f4 + 3) t0 _ rest _ ht0 hexpr
  | div l r ihl ihr =>
    intro rest f hf
    have hsz : sz (.div l r) = sz l + sz r + 1 := rfl
    obtain ⟨f4, rfl⟩ : ∃ f4, f = f4 + 4 := ⟨f - 4, by omega⟩
    have heq : tokRender (.div l r) ++ rest =
        .lpar :: (tokRender l ++ (.slash :: (tokRender r ++ (.rpar :: rest)))) := by
      show (.lpar :: (tokRender l ++ .slash :: (tokRender r ++ [.rpar]))) ++ rest = _
      simp
    rw [heq]
    have hfac1 : pFactor (f4 + 1)
        (tokRender l ++ (.slash :: (tokRender r ++ (.rpar :: rest)))) =
        .ok (toPy l, .slash :: (tokRender r ++ (.rpar :: rest))) :=
      pFactor_operand l ihl _ (f4 + 1) (by omega)
        (by intro ts' hts'; injection hts' with ha hb; exact absurd ha.symm (by decide))
    have hfac2 : pFactor f4 (tokRender r ++ (.rpar :: rest)) =
        .ok (toPy r, .rpar :: rest) :=
      pFactor_operand r ihr _ f4 (by omega)
        (by intro ts' hts'; injection hts' with ha hb; exact absurd ha.symm (by decide))
    have hterm : pTerm (f4 + 2)
        (tokRender l ++ (.slash :: (tokRender r ++ (.rpar :: rest)))) =
        .ok (.binOp .div (toPy l) (toPy r), .rpar :: rest) := by
      unfold pTerm
      rw [hfac1]
      show pTermTail (f4 + 1) (toPy l) (.slash :: (tokRender r ++ (.rpar :: rest))) = _
      rw [pTermTail_slash f4 (toPy l) _ (toPy r) (.rpar :: rest) hfac2]
      exact pTermTail_stop f4 _ _
        (by
          intro t ts' hts'
          injection hts' with ha hb
          rw [← ha]
          exact ⟨by decide, by decide, by decide, by decide⟩)
        (by omega)
    have hexpr : pExpr (f4 + 3)
        (tokRender l ++ (.slash :: (tokRender r ++ (.rpar :: rest)))) =
        .ok (.binOp .div (toPy l) (toPy r), .rpar :: rest) := by
      unfold pExpr
      rw [hterm]
      exact pExprTail_stop (f4 + 2) _ _
        (by
          intro t ts' hts'
          injection hts' with ha hb
          rw [← ha]
          exact ⟨by decide, by decide⟩)
        (by omega)
    obtain ⟨t0, ts0, hts0, hhead0⟩ := tokRender_head l
    have ht0 : t0 ≠ Tok.rpar := by
      rcases hhead0 with h | ⟨q, h⟩ <;> subst h <;> simp
    rw [hts0, List.cons_append] at hexpr ⊢
    exact pAtom_paren (f4 + 3) t0 _ rest _ ht0 hexpr
  | mod l r ihl ihr =>
    intro rest f hf
    have hsz : sz (.mod l r) = sz l + sz r + 1 := rfl
    obtain ⟨f4, rfl⟩ : ∃ f4, f = f4 + 4 := ⟨f - 4, by omega⟩
    have heq : tokRender (.mod l r) ++ rest =
        .lpar :: (tokRender l ++ (.percent :: (tokRender r ++ (.rpar :: rest)))) := by
      show (.lpar :: (tokRender l ++ .percent :: (tokRender r ++ [.rpar]))) ++ rest = _
      simp
    rw [heq]
    have hfac1 : pFactor (f4 + 1)
        (tokRender l ++ (.percent :: (tokRender r ++ (.rpar :: rest)))) =
        .ok (toPy l, .percent :: (tokRender r ++ (.rpar :: rest))) :=
      pFactor_operand l ihl _ (f4 + 1) (by omega)
        (by intro ts' hts'; injection hts' with ha hb; exact absurd ha.symm (by decide))
    have hfac2 : pFactor f4 (tokRender r ++ (.rpar :: rest)) =
        .ok (toPy r, .rpar :: rest) :=
      pFactor_operand r ihr _ f4 (by omega)
        (by intro ts' hts'; injection hts' with ha hb; exact absurd ha.symm (by decide))
    have hterm : pTerm (f4 + 2)
        (tokRender l ++ (.percent :: (tokRender r ++ (.rpar :: rest)))) =
        .ok (.binOp .mod (toPy l) (toPy r), .rpar :: rest) := by
      unfold pTerm
      rw [hfac1]
      show pTermTail (f4 + 1) (toPy l) (.percent :: (tokRender r ++ (.rpar :: rest))) = _
      rw [pTermTail_percent f4 (toPy l) _ (toPy r) (.rpar :: rest) hfac2]
      exact pTermTail_stop f4 _ _
        (by
          intro t ts' hts'
          injection hts' with ha hb
          rw [← ha]
          exact ⟨by decide, by decide, by decide, by decide⟩)
        (by omega)
    have hexpr : pExpr (f4 + 3)
        (tokRender l ++ (.percent :: (tokRender r ++ (.rpar :: rest)))) =
        .ok (.binOp .mod (toPy l) (toPy r), .rpar :: rest) := by
      unfold pExpr
      rw [hterm]
      exact pExprTail_stop (f4 + 2) _ _
        (by
          intro t ts' hts'
          injection hts' with ha hb
          rw [← ha]
          exact ⟨by decide, by decide⟩)
        (by omega)
    obtain ⟨t0, ts0, hts0, hhead0⟩ := tokRender_head l
    have ht0 : t0 ≠ Tok.rpar := by
      rcases hhead0 with h | ⟨q, h⟩ <;> subst h <;> simp
    rw [hts0, List.cons_append] at hexpr ⊢
    exact pAtom_paren (f4 + 3) t0 _ rest _ ht0 hexpr
  | pow l r ihl ihr =>
    intro rest f hf
    have hsz : sz (.pow l r) = sz l + sz r + 1 := rfl
    obtain ⟨f5, rfl⟩ : ∃ f5, f = f5 + 5 := ⟨f - 5, by omega⟩
    have heq : tokRender (.pow l r) ++ rest =
        .lpar :: (tokRender l ++ (.dstar :: (tokRender r ++ (.rpar :: rest)))) := by
      show (.lpar :: (tokRender l ++ .dstar :: (tokRender r ++ [.rpar]))) ++ rest = _
      simp
    rw [heq]
    have hatoml : pAtom f5
        (tokRender l ++ (.dstar :: (tokRender r ++ (.rpar :: rest)))) =
        .ok (toPy l, .dstar :: (tokRender r ++ (.rpar :: rest))) :=
      ihl _ f5 (by omega)
    have hfacr : pFactor f5 (tokRender r ++ (.rpar :: rest)) =
        .ok (toPy r, .rpar :: rest) :=
      pFactor_operand r ihr _ f5 (by omega)
        (by intro ts' hts'; injection hts' with ha hb; exact absurd ha.symm (by decide))
    have hpow : pPower (f5 + 1)
        (tokRender l ++ (.dstar :: (tokRender r ++ (.rpar :: rest)))) =
        .ok (.binOp .pow (toPy l) (toPy r), .rpar :: rest) :=
      pPower_dstar f5 _ _ _ _ _ hatoml hfacr
    have hfac : pFactor (f5 + 2)
        (tokRender l ++ (.dstar :: (tokRender r ++ (.rpar :: rest)))) =
        .ok (.binOp .pow (toPy l) (toPy r), .rpar :: rest) := by
      obtain ⟨t0, ts0, hts0, hhead0⟩ := tokRender_head l
      have hstep : pFactor (f5 + 2)
          (tokRender l ++ (.dstar :: (tokRender r ++ (.rpar :: rest)))) =
          pPower (f5 + 1)
            (tokRender l ++ (.dstar :: (tokRender r ++ (.rpar :: rest)))) := by
        rw [hts0, List.cons_append]
        rcases hhead0 with h | ⟨q, h⟩ <;> subst h <;> rfl
      rw [hstep]
      exact hpow
    have hterm : pTerm (f5 + 3)
        (tokRender l ++ (.dstar :: (tokRender r ++ (.rpar :: rest)))) =
        .ok (.binOp .pow (toPy l) (toPy r), .rpar :: rest) := by
      unfold pTerm
      rw [hfac]
      exact pTermTail_stop (f5 + 2) _ _
        (by
          intro t ts' hts'
          injection hts' with ha hb
          rw [← ha]
          exact ⟨by decide, by decide, by decide, by decide⟩)
        (by omega)
    have hexpr : pExpr (f5 + 4)
        (tokRender l ++ (.dstar :: (tokRender r ++ (.rpar :: rest)))) =
        .ok (.binOp .pow (toPy l) (toPy r), .rpar :: rest) := by
      unfold pExpr
      rw [hterm]
      exact pExprTail_stop (f5 + 3) _ _
        (by
          intro t ts' hts'
          injection hts' with ha hb
          rw [← ha]
          exact ⟨by decide, by decide⟩)
        (by omega)
    obtain ⟨t0, ts0, hts0, hhead0⟩ := tokRender_head l
    have ht0 : t0 ≠ Tok.rpar := by
      rcases hhead0 with h | ⟨q, h⟩ <;> subst h <;> simp
    rw [hts0, List.cons_append] at hexpr ⊢
    exact pAtom_paren (f5 + 4) t0 _ rest _ ht0 hexpr

/-- The complete parse of the token string of a rendered expression. -/
theorem parseToks_render (e : SExpr) :
    parseToks (tokRender e) = .ok (toPy e) := by
  unfold parseToks
  have hsz : sz e ≤ (tokRender e).length := by
    induction e <;> simp [tokRender, sz, List.length_append] <;> omega
  have h := pExpr_operand e (pAtom_render e) [] (7 * (tokRender e).length + 10)
    (by omega) (by intro t ts' hts'; cases hts')
  rw [List.append_nil] at h
  rw [h]
  rfl

/- Transfer of the fraction arithmetic to the exact rationals. -/

/-- Value of an integer fraction. -/
theorem toRat_mk_int (n : Int) : (Q.mk n 1).toRat = (n : ℚ) := by
  unfold Q.toRat
  simp

/-- Addition of fractions is rational addition. -/
theorem toRat_qAdd (a b : Q) (ha : a.den ≠ 0) (hb : b.den ≠ 0) :
    (qAdd a b).toRat = a.toRat + b.toRat := by
  unfold Q.toRat qAdd
  have ha' : (a.den : ℚ) ≠ 0 := Int.cast_ne_zero.mpr ha
  have hb' : (b.den : ℚ) ≠ 0 := Int.cast_ne_zero.mpr hb
  push_cast
  field_simp

/-- Subtraction of fractions is rational subtraction. -/
theorem toRat_qSub (a b : Q) (ha : a.den ≠ 0) (hb : b.den ≠ 0) :
    (qSub a b).toRat = a.toRat - b.toRat := by
  unfold Q.toRat qSub
  have ha' : (a.den : ℚ) ≠ 0 := Int.cast_ne_zero.mpr ha
  have hb' : (b.den : ℚ) ≠ 0 := Int.cast_ne_zero.mpr hb
  push_cast
  field_simp
  ring

/-- Multiplication of fractions is rational multiplication. -/
theorem toRat_qMul (a b : Q) (ha : a.den ≠ 0) (hb : b.den ≠ 0) :
    (qMul a b).toRat = a.toRat * b.toRat := by
  unfold Q.toRat qMul
  push_cast
  field_simp

/-- Negation of fractions is rational negation. -/
theorem toRat_qNeg (a : Q) : (qNeg a).toRat = -a.toRat := by
  unfold Q.toRat qNeg
  push_cast
  ring_nf

/-- Division of fractions is rational division. -/
theorem toRat_qDiv (a b : Q) (ha : a.den ≠ 0) (hb : b.den ≠ 0)
    (hbn : b.num ≠ 0) : (qDiv a b).toRat = a.toRat / b.toRat := by
  unfold Q.toRat qDiv
  have ha' : (a.den : ℚ) ≠ 0 := Int.cast_ne_zero.mpr ha
  have hb' : (b.den : ℚ) ≠ 0 := Int.cast_ne_zero.mpr hb
  have hbn' : (b.num : ℚ) ≠ 0 := Int.cast_ne_zero.mpr hbn
  push_cast
  field_simp

/-- A fraction is rationally zero exactly when its numerator is
    zero. -/
theorem toRat_eq_zero_iff (a : Q) (ha : a.den ≠ 0) :
    a.toRat = 0 ↔ a.num = 0 := by
  unfold Q.toRat
  have ha' : (a.den : ℚ) ≠ 0 := Int.cast_ne_zero.mpr ha
  rw [div_eq_zero_iff]
  simp [ha']

/-- The fraction floor is the rational floor. -/
theorem qFloor_eq_floor (a : Q) (ha : a.den ≠ 0) :
    qFloor a = ⌊a.toRat⌋ := by
  unfold qFloor Q.toRat
  by_cases hd : 0 ≤ a.den
  · rw [if_pos hd]
    have hpos : 0 < a.den := lt_of_le_of_ne hd (Ne.symm ha)
    have hcast : (a.den : ℚ) = ((a.den.toNat : ℕ) : ℚ) := by
      exact_mod_cast (Int.toNat_of_nonneg hd).symm
    rw [hcast, Rat.floor_intCast_div_natCast, Int.toNat_of_nonneg hd]
  · rw [if_neg hd]
    have hneg : a.den < 0 := by omega
    have h0 : 0 ≤ -a.den := by omega
    have hcast : ((-a.den : Int) : ℚ) = (((-a.den).toNat : ℕ) : ℚ) := by
      exact_mod_cast (Int.toNat_of_nonneg h0).symm
    have hquot : (a.num : ℚ) / (a.den : ℚ) = ((-a.num : Int) : ℚ) / ((-a.den : Int) : ℚ) := by
      push_cast
      rw [neg_div_neg_eq]
    rw [hquot, hcast, Rat.floor_intCast_div_natCast, Int.toNat_of_nonneg h0]

/-- The fraction modulo realizes the Python modulo over the
    rationals. -/
theorem toRat_qMod (a b : Q) (ha : a.den ≠ 0) (hb : b.den ≠ 0)
    (hbn : b.num ≠ 0) :
    (qMod a b).toRat = a.toRat - b.toRat * ⌊a.toRat / b.toRat⌋ := by
  unfold qMod
  have hdn : (qDiv a b).den ≠ 0 := by
    show a.den * b.num ≠ 0
    exact mul_ne_zero ha hbn
  have hfloor : qFloor (qDiv a b) = ⌊a.toRat / b.toRat⌋ := by
    rw [qFloor_eq_floor _ hdn, toRat_qDiv a b ha hb hbn]
  have hmulden : (qMul b ⟨qFloor (qDiv a b), 1⟩).den ≠ 0 := by
    show b.den * 1 ≠ 0
    simpa using hb
  rw [toRat_qSub a _ ha hmulden,
    toRat_qMul b ⟨qFloor (qDiv a b), 1⟩ hb (by simp), toRat_mk_int, hfloor]

/-- The fraction power with a nonnegative integer exponent. -/
theorem toRat_qPowInt_nonneg (a : Q) (k : Int) (ha : a.den ≠ 0) (hk : 0 ≤ k) :
    (qPowInt a k).toRat = a.toRat ^ k := by
  have hkk : a.toRat ^ k = a.toRat ^ k.toNat := by
    conv_lhs => rw [← Int.toNat_of_nonneg hk]
    exact zpow_natCast _ _
  rw [hkk]
  unfold qPowInt
  rw [if_pos hk]
  unfold Q.toRat
  push_cast
  rw [div_pow]

/-- The fraction power with a negative integer exponent and a nonzero
    base. -/
theorem toRat_qPowInt_neg (a : Q) (k : Int) (ha : a.den ≠ 0)
    (han : a.num ≠ 0) (hk : k < 0) :
    (qPowInt a k).toRat = a.toRat ^ k := by
  have hkk : a.toRat ^ k = (a.toRat ^ (-k).toNat)⁻¹ := by
    conv_lhs => rw [show k = -(((-k).toNat : ℕ) : ℤ) by omega]
    rw [zpow_neg, zpow_natCast]
  rw [hkk]
  unfold qPowInt
  rw [if_neg (by omega)]
  unfold Q.toRat
  push_cast
  rw [div_pow, inv_div]

/-- Evaluating the Python AST of a rendered expression produces a
    well-formed fraction whose rational value is the mathematical value
    of the expression. -/
theorem evalNode_toPy (e : SExpr) (v : ℚ) (hd : SDenote e v) :
    ∃ q : Q, evalNode (toPy e) = .ok q ∧ q.den ≠ 0 ∧ q.toRat = v := by
  induction hd with
  | num n =>
    refine ⟨⟨(n : Int), 1⟩, rfl, by simp, ?_⟩
    rw [toRat_mk_int]
    push_cast
    rfl
  | neg h ih =>
    obtain ⟨q, h1, h2, h3⟩ := ih
    refine ⟨qNeg q, ?_, ?_, ?_⟩
    · show (do
        let a ← evalNode (toPy _)
        (.ok (applyUn .usub a) : Except ArithError Q)) = _
      rw [h1]
      rfl
    · exact h2
    · rw [toRat_qNeg, h3]
  | pos h ih =>
    obtain ⟨q, h1, h2, h3⟩ := ih
    refine ⟨q, ?_, h2, h3⟩
    show (do
      let a ← evalNode (toPy _)
      (.ok (applyUn .uadd a) : Except ArithError Q)) = _
    rw [h1]
    rfl
  | add hl hr ihl ihr =>
    obtain ⟨qa, ha1, ha2, ha3⟩ := ihl
    obtain ⟨qb, hb1, hb2, hb3⟩ := ihr
    refine ⟨qAdd qa qb, ?_, mul_ne_zero ha2 hb2, ?_⟩
    · show (do
        let a ← evalNode (toPy _)
        let b ← evalNode (toPy _)
        applyBin .add a b) = _
      rw [ha1, hb1]
      rfl
    · rw [toRat_qAdd qa qb ha2 hb2, ha3, hb3]
  | sub hl hr ihl ihr =>
    obtain ⟨qa, ha1, ha2, ha3⟩ := ihl
    obtain ⟨qb, hb1, hb2, hb3⟩ := ihr
    refine ⟨qSub qa qb, ?_, mul_ne_zero ha2 hb2, ?_⟩
    · show (do
        let a ← evalNode (toPy _)
        let b ← evalNode (toPy _)
        applyBin .sub a b) = _
      rw [ha1, hb1]
      rfl
    · rw [toRat_qSub qa qb ha2 hb2, ha3, hb3]
  | mul hl hr ihl ihr =>
    obtain ⟨qa, ha1, ha2, ha3⟩ := ihl
    obtain ⟨qb, hb1, hb2, hb3⟩ := ihr
    refine ⟨qMul qa qb, ?_, mul_ne_zero ha2 hb2, ?_⟩
    · show (do
        let a ← evalNode (toPy _)
        let b ← evalNode (toPy _)
        applyBin .mult a b) = _
      rw [ha1, hb1]
      rfl
    · rw [toRat_qMul qa qb ha2 hb2, ha3, hb3]
  | div hl hr hbz ihl ihr =>
    obtain ⟨qa, ha1, ha2, ha3⟩ := ihl
    obtain ⟨qb, hb1, hb2, hb3⟩ := ihr
    have hbn : qb.num ≠ 0 := by
      intro hcon
      exact hbz (hb3 ▸ (toRat_eq_zero_iff qb hb2).mpr hcon)
    refine ⟨qDiv qa qb, ?_, mul_ne_zero ha2 hbn, ?_⟩
    · show (do
        let a ← evalNode (toPy _)
        let b ← evalNode (toPy _)
        applyBin .div a b) = _
      rw [ha1, hb1]
      show (if qb.num = 0 then (.error .divisionByZero : Except ArithError Q)
        else .ok (qDiv qa qb)) = _
      rw [if_neg hbn]
    · rw [toRat_qDiv qa qb ha2 hb2 hbn, ha3, hb3]
  | mod hl hr hbz ihl ihr =>
    obtain ⟨qa, ha1, ha2, ha3⟩ := ihl
    obtain ⟨qb, hb1, hb2, hb3⟩ := ihr
    have hbn : qb.num ≠ 0 := by
      intro hcon
      exact hbz (hb3 ▸ (toRat_eq_zero_iff qb hb2).mpr hcon)
    refine ⟨qMod qa qb, ?_, ?_, ?_⟩
    · show (do
        let a ← evalNode (toPy _)
        let b ← evalNode (toPy _)
        applyBin .mod a b) = _
      rw [ha1, hb1]
      show (if qb.num = 0 then (.error .divisionByZero : Except ArithError Q)
        else .ok (qMod qa qb)) = _
      rw [if_neg hbn]
    · show (qSub qa (qMul qb ⟨qFloor (qDiv qa qb), 1⟩)).den ≠ 0
      show qa.den * (qMul qb ⟨qFloor (qDiv qa qb), 1⟩).den ≠ 0
      refine mul_ne_zero ha2 ?_
      show qb.den * 1 ≠ 0
      simpa using hb2
    · rw [toRat_qMod qa qb ha2 hb2 hbn, ha3, hb3]
  | pow k hl hr hbk haz ihl ihr =>
    obtain ⟨qa, ha1, ha2, ha3⟩ := ihl
    obtain ⟨qb, hb1, hb2, hb3⟩ := ihr
    have hnum : qb.num = k * qb.den := by
      have hcast : (qb.num : ℚ) = (k : ℚ) * (qb.den : ℚ) := by
        have hb' : (qb.den : ℚ) ≠ 0 := Int.cast_ne_zero.mpr hb2
        have := hb3.trans hbk
        unfold Q.toRat at this
        field_simp at this
        linarith [this]
      exact_mod_cast hcast
    have hmod : qb.num % qb.den = 0 := by
      rw [hnum]
      exact Int.mul_emod_left k qb.den
    have hdiv : qb.num / qb.den = k := by
      rw [hnum]
      exact Int.mul_ediv_cancel k hb2
    have ha0k : qa.toRat = 0 → (0 : ℤ) ≤ k := by
      intro h0
      apply haz
      rw [← ha3]
      exact h0
    have hguard : ¬(qa.num = 0 ∧ qb.num / qb.den < 0) := by
      rintro ⟨hz, hneg⟩
      rw [hdiv] at hneg
      have h0k := ha0k ((toRat_eq_zero_iff qa ha2).mpr hz)
      omega
    refine ⟨qPowInt qa k, ?_, ?_, ?_⟩
    · show (do
        let a ← evalNode (toPy _)
        let b ← evalNode (toPy _)
        applyBin .pow a b) = _
      rw [ha1, hb1]
      show (if qb.num % qb.den = 0 then
          if qa.num = 0 ∧ qb.num / qb.den < 0 then (.error .divisionByZero : Except ArithError Q)
          else .ok (qPowInt qa (qb.num / qb.den))
        else .error .unsupportedPower) = _
      rw [if_pos hmod, if_neg hguard, hdiv]
    · unfold qPowInt
      by_cases hk : 0 ≤ k
      · rw [if_pos hk]
        exact pow_ne_zero _ ha2
      · rw [if_neg hk]
        have han : qa.num ≠ 0 :=
          fun hz => hk (ha0k ((toRat_eq_zero_iff qa ha2).mpr hz))
        exact pow_ne_zero _ han
    · by_cases hk : 0 ≤ k
      · rw [toRat_qPowInt_nonneg qa k ha2 hk, ha3]
      · have han : qa.num ≠ 0 :=
          fun hz => hk (ha0k ((toRat_eq_zero_iff qa ha2).mpr hz))
        rw [toRat_qPowInt_neg qa k ha2 han (by omega), ha3]

/-- Digit characters of small numbers are among the ten digits. -/
theorem digitChar_mem (d : Nat) (h : d < 10) :
    Nat.digitChar d ∈ str "0123456789" := by
  interval_cases d <;> decide

/-- The characters of a digit rendering are among the ten digits. -/
theorem natDigitsAux_mem (f : Nat) :
    ∀ (n : Nat) (c : Char), c ∈ natDigitsAux f n → c ∈ str "0123456789" := by
  induction f with
  | zero => intro n c hc; simp [natDigitsAux] at hc
  | succ f ih =>
    intro n c hc
    cases n with
    | zero => simp [natDigitsAux] at hc
    | succ m =>
      unfold natDigitsAux at hc
      rw [List.mem_append] at hc
      cases hc with
      | inl h => exact ih _ _ h
      | inr h =>
        rw [List.mem_singleton] at h
        subst h
        exact digitChar_mem _ (Nat.mod_lt _ (by omega))

/-- The characters of a rendered number are among the ten digits. -/
theorem natDigits_mem (n : Nat) :
    ∀ c ∈ natDigits n, c ∈ str "0123456789" := by
  intro c hc
  unfold natDigits at hc
  by_cases h : n = 0
  · rw [if_pos h] at hc
    simp at hc
    subst hc
    decide
  · rw [if_neg h] at hc
    exact natDigitsAux_mem n n c hc

/-- Every character of a rendered expression is a digit, operator
    symbol or parenthesis. -/
theorem render_chars (e : SExpr) :
    ∀ c ∈ render e, c ∈ str "0123456789+-*/()%" := by
  have hdig : ∀ c, c ∈ str "0123456789" → c ∈ str "0123456789+-*/()%" := by decide
  induction e with
  | num n => exact fun c hc => hdig c (natDigits_mem n c hc)
  | neg e ihe =>
    intro c hc
    simp only [render, List.mem_cons, List.mem_append, List.mem_singleton,
      List.not_mem_nil, or_false] at hc
    rcases hc with h | h | h | h
    · subst h; decide
    · subst h; decide
    · exact ihe c h
    · subst h; decide
  | pos e ihe =>
    intro c hc
    simp only [render, List.mem_cons, List.mem_append, List.mem_singleton,
      List.not_mem_nil, or_false] at hc
    rcases hc with h | h | h | h
    · subst h; decide
    · subst h; decide
    · exact ihe c h
    · subst h; decide
  | add l r ihl ihr =>
    intro c hc
    simp only [render, List.mem_cons, List.mem_append, List.mem_singleton,
      List.not_mem_nil, or_false] at hc
    rcases hc with h | h | h | h | h
    · subst h; decide
    · exact ihl c h
    · subst h; decide
    · exact ihr c h
    · subst h; decide
  | sub l r ihl ihr =>
    intro c hc
    simp only [render, List.mem_cons, List.mem_append, List.mem_singleton,
      List.not_mem_nil, or_false] at hc
    rcases hc with h | h | h | h | h
    · subst h; decide
    · exact ihl c h
    · subst h; decide
    · exact ihr c h
    · subst h; decide
  | mul l r ihl ihr =>
    intro c hc
    simp only [render, List.mem_cons, List.mem_append, List.mem_singleton,
      List.not_mem_nil, or_false] at hc
    rcases hc with h | h | h | h | h
    · subst h; decide
    · exact ihl c h
    · subst h; decide
    · exact ihr c h
    · subst h; decide
  | div l r ihl ihr =>
    intro c hc
    simp only [render, List.mem_cons, List.mem_append, List.mem_singleton,
      List.not_mem_nil, or_false] at hc
    rcases hc with h | h | h | h | h
    · subst h; decide
    · exact ihl c h
    · subst h; decide
    · exact ihr c h
    · subst h; decide
  | mod l r ihl ihr =>
    intro c hc
    simp only [render, List.mem_cons, List.mem_append, List.mem_singleton,
      List.not_mem_nil, or_false] at hc
    rcases hc with h | h | h | h | h
    · subst h; decide
    · exact ihl c h
    · subst h; decide
    · exact ihr c h
    · subst h; decide
  | pow l r ihl ihr =>
    intro c hc
    simp only [render, List.mem_cons, List.mem_append, List.mem_singleton,
      List.not_mem_nil, or_false] at hc
    rcases hc with h | h | h | h | h | h
    · subst h; decide
    · exact ihl c h
    · subst h; decide
    · subst h; decide
    · exact ihr c h
    · subst h; decide

/-- A rendered expression is never the empty string. -/
theorem render_ne_nil (e : SExpr) : render e ≠ [] := by
  cases e with
  | num n => exact natDigits_ne_nil n
  | neg e => exact List.cons_ne_nil _ _
  | pos e => exact List.cons_ne_nil _ _
  | add l r => exact List.cons_ne_nil _ _
  | sub l r => exact List.cons_ne_nil _ _
  | mul l r => exact List.cons_ne_nil _ _
  | div l r => exact List.cons_ne_nil _ _
  | mod l r => exact List.cons_ne_nil _ _
  | pow l r => exact List.cons_ne_nil _ _

/-- A string with no whitespace character strips to itself. -/
theorem strip_eq_self_of_no_space (s : Str)
    (h : ∀ c ∈ s, isPySpace c = false) : strip s = s := by
  have h1 : stripLeft s = s := by
    unfold stripLeft
    rw [List.dropWhile_eq_self_iff]
    intro hl
    simpa using h (s.get ⟨0, hl⟩) (List.get_mem s 0 hl)
  show stripRight (stripLeft s) = s
  rw [h1, stripRight_eq_rdropWhile, List.rdropWhile_eq_self_iff]
  intro hl
  simpa using h (s.getLast hl) (List.getLast_mem hl)

/-- Reduction of a successful bind. -/
theorem bind_ok_eq {α β : Type} (a : α) (g : α → Except ArithError β) :
    ((Except.ok a : Except ArithError α) >>= g) = g a := rfl

/-- C2: for every valid expression built from decimal literals and the
    eight allowed operators — here every fully parenthesized rendering
    of an abstract expression tree whose mathematical value is defined —
    the evaluator passes the whitelist gate, parses the string and
    returns exactly the mathematical value (correctness is exact in the
    rational model, hence within the floating-point tolerance the spec
    allows); and concretely 23 times 7 normalizes to 23 * 7, which
    evaluates to 161. -/
theorem evaluate_render_correct :
    (∀ (e : SExpr) (v : ℚ), SDenote e v →
      (evaluate (render e)).map Q.toRat = .ok v) ∧
    normalize (str "23 times 7") = str "23 * 7" ∧
    evaluate (str "23 * 7") = .ok ⟨161, 1⟩ ∧
    (Q.mk 161 1).toRat = 161 := by
  refine ⟨?_, by decide, by decide, by norm_num [Q.toRat]⟩
  intro e v hd
  obtain ⟨q, hq1, hq2, hq3⟩ := evalNode_toPy e v hd
  have hchars := render_chars e
  have hsub : ∀ c ∈ str "0123456789+-*/()%", c ∈ allowedChars := by decide
  have hsubc : ∀ c ∈ str "0123456789+-*/()%", decide (c ≠ ',') = true := by decide
  have hsubs : ∀ c ∈ str "0123456789+-*/()%", isPySpace c = false := by decide
  have hgate : (render e).all (fun c => allowedChars.contains c) = true := by
    rw [List.all_eq_true]
    intro c hc
    have hmem := hsub c (hchars c hc)
    rw [List.contains_eq_any_beq, List.any_eq_true]
    exact ⟨c, hmem, by simp⟩
  have hfilter : (render e).filter (fun c => decide (c ≠ ',')) = render e := by
    rw [List.filter_eq_self]
    intro c hc
    exact hsubc c (hchars c hc)
  have hnospace : ∀ c ∈ render e, isPySpace c = false :=
    fun c hc => hsubs c (hchars c hc)
  have hne : (render e).isEmpty = false := by
    cases hr : render e with
    | nil => exact absurd hr (render_ne_nil e)
    | cons a l => rfl
  show (evaluate (render e)).map Q.toRat = .ok v
  unfold evaluate
  rw [if_pos hgate]
  unfold safe_eval
  rw [hfilter, strip_eq_self_of_no_space (render e) hnospace]
  simp only [hne, Bool.false_eq_true, if_false]
  rw [tokenize_render e]
  simp only [bind_ok_eq]
  rw [parseToks_render e]
  simp only [bind_ok_eq]
  rw [hq1]
  simp [Except.map, hq3]

/-- Witness for C2: the product of 23 and 7, rendered and evaluated,
    yields exactly the rational 161. -/
theorem evaluate_render_correct_witness :
    SDenote (.mul (.num 23) (.num 7)) 161 ∧
      (evaluate (render (.mul (.num 23) (.num 7)))).map Q.toRat = .ok 161 := by
  have hd : SDenote (.mul (.num 23) (.num 7)) ((23 : ℚ) * (7 : ℚ)) :=
    SDenote.mul (SDenote.num 23) (SDenote.num 7)
  have h161 : ((23 : ℚ) * (7 : ℚ)) = 161 := by norm_num
  rw [h161] at hd
  exact ⟨hd, evaluate_render_correct.1 _ 161 hd⟩

end Assistant
